import Mathlib

/-!
Shallow embedding of the timesheet repository's timer storage layer
(source files src/lib/storage/base.ts and src/lib/storage/timeEntries.ts)
and of its report/analytics engine (source file src/lib/reports.ts),
together with proofs settling the specification claims about them.

Modelling conventions:
  * JavaScript numbers are modelled as exact rationals for the report
    arithmetic and as integers (milliseconds since the epoch) for
    timestamps; division that would produce NaN or an infinity in
    JavaScript is modelled explicitly by the JsNum type.
  * Calendar dates are modelled as integer day indices: an entry's ISO
    date string (startTime converted with toISOString and truncated to
    the date part) corresponds to the integer day of its start time.
  * The ambient clock (Date.now), the generated entry id, and the entry
    snapshot read from localStorage are passed as explicit arguments.
-/

namespace Timesheet

/-- A stored time entry (the TimeEntry record handled by
TimeEntryStorageManager).  Timestamps are integer milliseconds since the
epoch; duration is in whole seconds. -/
structure TimeEntry where
  id : String
  projectId : String
  taskId : Option String
  startTime : Int
  endTime : Option Int
  duration : Int
  tags : List String
  createdAt : Int
  updatedAt : Int
  isRunning : Bool
deriving DecidableEq

/-- BaseStorageManager.getById: the first stored item whose id matches. -/
def getById (id : String) (s : List TimeEntry) : Option TimeEntry :=
  s.find? (fun e => e.id == id)

/-- BaseStorageManager.update: merge the given field updates into the first
item whose id matches (items[index] = spread of old and updates) and return
the updated item; when the id is absent the store is unchanged and the
result is the undefined sentinel (none). -/
def update (id : String) (f : TimeEntry → TimeEntry) :
    List TimeEntry → List TimeEntry × Option TimeEntry
  | [] => ([], none)
  | e :: rest =>
    if e.id == id then (f e :: rest, some (f e))
    else
      let p := update id f rest
      (e :: p.1, p.2)

/-- BaseStorageManager.create: push the new item at the end of the store. -/
def create (e : TimeEntry) (s : List TimeEntry) : List TimeEntry :=
  s ++ [e]

/-- TimeEntryStorageManager.getRunningEntry: the first entry with
isRunning set, if any. -/
def getRunningEntry (s : List TimeEntry) : Option TimeEntry :=
  s.find? (fun e => e.isRunning)

/-- The field updates stopTimer passes to update: endTime set to now,
duration the floor of the elapsed milliseconds over 1000 (computed from the
looked-up entry), isRunning cleared, updatedAt stamped. -/
def stopPatch (now : Int) (entry : TimeEntry) (old : TimeEntry) : TimeEntry :=
  { old with
    endTime := some now
    duration := (now - entry.startTime).fdiv 1000
    isRunning := false
    updatedAt := now }

/-- TimeEntryStorageManager.stopTimer: a no-op returning the undefined
sentinel when the id is absent or the entry is not running; otherwise set
endTime to now, duration to the floor of the elapsed milliseconds divided
by 1000, clear isRunning and stamp updatedAt, via update. -/
def stopTimer (now : Int) (id : String) (s : List TimeEntry) :
    List TimeEntry × Option TimeEntry :=
  match getById id s with
  | none => (s, none)
  | some entry =>
    if entry.isRunning then update id (stopPatch now entry) s
    else (s, none)

/-- TimeEntryStorageManager.stopAllTimers: stop the (first) running entry
when there is one. -/
def stopAllTimers (now : Int) (s : List TimeEntry) : List TimeEntry :=
  match getRunningEntry s with
  | some e => (stopTimer now e.id s).1
  | none => s

/-- The fresh entry startTimer builds: duration 0, startTime now, running. -/
def startEntry (now : Int) (newId projectId : String)
    (taskId : Option String) (tags : List String) : TimeEntry :=
  { id := newId
    projectId := projectId
    taskId := taskId
    startTime := now
    endTime := none
    duration := 0
    tags := tags
    createdAt := now
    updatedAt := now
    isRunning := true }

/-- TimeEntryStorageManager.startTimer: stop any running timer first, then
create and return a fresh running entry with duration 0 and startTime now.
The id produced by generateId is passed as the explicit argument newId. -/
def startTimer (now : Int) (newId : String) (projectId : String)
    (taskId : Option String) (tags : List String) (s : List TimeEntry) :
    List TimeEntry × TimeEntry :=
  let s1 := stopAllTimers now s
  let entry := startEntry now newId projectId taskId tags
  (create entry s1, entry)

/-- Number of entries currently marked running. -/
def countRunning (s : List TimeEntry) : Nat :=
  (s.filter (fun e => e.isRunning)).length

/-- The list of entry ids, in storage order. -/
def ids (s : List TimeEntry) : List String :=
  s.map (fun e => e.id)

/-- One public timer call of the storage manager.  A start call carries the
id produced by generateId; the side condition records that generated ids do
not collide with ids already present in the store. -/
inductive TimerCall : List TimeEntry → List TimeEntry → Prop
  | start (now : Int) (newId projectId : String) (taskId : Option String)
      (tags : List String) (s : List TimeEntry) (hfresh : newId ∉ ids s) :
      TimerCall s (startTimer now newId projectId taskId tags s).1
  | stop (now : Int) (id : String) (s : List TimeEntry) :
      TimerCall s (stopTimer now id s).1

/-- A finite sequence of startTimer and stopTimer calls. -/
inductive TimerTrace : List TimeEntry → List TimeEntry → Prop
  | refl (s : List TimeEntry) : TimerTrace s s
  | step {s t u : List TimeEntry} :
      TimerTrace s t → TimerCall t u → TimerTrace s u

/-- A concrete stopped entry, used in witnesses. -/
def stoppedEntry : TimeEntry :=
  { id := "a", projectId := "p", taskId := none, startTime := 0,
    endTime := some 100, duration := 0, tags := [], createdAt := 0,
    updatedAt := 0, isRunning := false }

/-- A concrete running entry, used in witnesses. -/
def runningA : TimeEntry :=
  { id := "a", projectId := "p", taskId := none, startTime := 0,
    endTime := none, duration := 0, tags := [], createdAt := 0,
    updatedAt := 0, isRunning := true }

/-- A second concrete running entry with a distinct id. -/
def runningB : TimeEntry :=
  { runningA with id := "b" }

lemma countRunning_nil : countRunning [] = 0 := rfl

lemma countRunning_cons (e : TimeEntry) (s : List TimeEntry) :
    countRunning (e :: s) =
      (if e.isRunning then 1 else 0) + countRunning s := by
  simp only [countRunning, List.filter_cons]
  by_cases h : e.isRunning <;> simp [h, Nat.add_comm]

lemma countRunning_append (s t : List TimeEntry) :
    countRunning (s ++ t) = countRunning s + countRunning t := by
  simp [countRunning, List.filter_append]

/-- update does not change the stored ids when the update function keeps
the id field. -/
lemma ids_update (id : String) (f : TimeEntry → TimeEntry)
    (hf : ∀ e, (f e).id = e.id) (s : List TimeEntry) :
    ids (update id f s).1 = ids s := by
  induction s with
  | nil => rfl
  | cons e rest ih =>
    by_cases h : e.id == id
    · simp [update, h, ids, hf]
    · simp only [update, h, if_neg]
      simp only [ids, List.map_cons] at ih ⊢
      simp [ih]

/-- If the update function always clears isRunning, update cannot increase
the number of running entries. -/
lemma countRunning_update_le (id : String) (f : TimeEntry → TimeEntry)
    (hf : ∀ e, (f e).isRunning = false) (s : List TimeEntry) :
    countRunning (update id f s).1 ≤ countRunning s := by
  induction s with
  | nil => simp [update]
  | cons e rest ih =>
    by_cases h : e.id == id
    · have hfst : (update id f (e :: rest)).1 = f e :: rest := by
        simp [update, h]
      rw [hfst, countRunning_cons, countRunning_cons, hf]
      simp
    · have hfst : (update id f (e :: rest)).1 = e :: (update id f rest).1 := by
        simp [update, h]
      rw [hfst, countRunning_cons, countRunning_cons]
      omega

/-- update removes at most one running entry. -/
lemma countRunning_le_update_add_one (id : String) (f : TimeEntry → TimeEntry)
    (s : List TimeEntry) :
    countRunning s ≤ countRunning (update id f s).1 + 1 := by
  induction s with
  | nil => simp [update]
  | cons e rest ih =>
    by_cases h : e.id == id
    · have hfst : (update id f (e :: rest)).1 = f e :: rest := by
        simp [update, h]
      rw [hfst, countRunning_cons, countRunning_cons]
      by_cases he : e.isRunning <;> simp [he] <;> omega
    · have hfst : (update id f (e :: rest)).1 = e :: (update id f rest).1 := by
        simp [update, h]
      rw [hfst, countRunning_cons, countRunning_cons]
      omega

lemma stopPatch_id (now : Int) (entry old : TimeEntry) :
    (stopPatch now entry old).id = old.id := rfl

lemma stopPatch_isRunning (now : Int) (entry old : TimeEntry) :
    (stopPatch now entry old).isRunning = false := rfl

/-- Full case analysis of stopTimer: either the id is absent, or the
looked-up entry is not running (both no-ops), or the entry is running and
the store is updated through update with stopPatch. -/
lemma stopTimer_cases (now : Int) (id : String) (s : List TimeEntry) :
    (getById id s = none ∧ stopTimer now id s = (s, none)) ∨
    (∃ entry, getById id s = some entry ∧ entry.isRunning = false ∧
      stopTimer now id s = (s, none)) ∨
    (∃ entry, getById id s = some entry ∧ entry.isRunning = true ∧
      stopTimer now id s = update id (stopPatch now entry) s) := by
  unfold stopTimer
  cases h : getById id s with
  | none => exact Or.inl ⟨rfl, rfl⟩
  | some entry =>
    by_cases hr : entry.isRunning
    · exact Or.inr (Or.inr ⟨entry, rfl, hr, by simp [hr]⟩)
    · exact Or.inr (Or.inl ⟨entry, rfl, by simpa using hr, by simp [hr]⟩)

lemma stopTimer_fst_cases (now : Int) (id : String) (s : List TimeEntry) :
    (stopTimer now id s).1 = s ∨
      ∃ entry, getById id s = some entry ∧ entry.isRunning = true ∧
        (stopTimer now id s).1 = (update id (stopPatch now entry) s).1 := by
  rcases stopTimer_cases now id s with ⟨_, h⟩ | ⟨entry, _, _, h⟩ | ⟨entry, h1, h2, h⟩
  · exact Or.inl (by rw [h])
  · exact Or.inl (by rw [h])
  · exact Or.inr ⟨entry, h1, h2, by rw [h]⟩

lemma countRunning_stopTimer_le (now : Int) (id : String) (s : List TimeEntry) :
    countRunning (stopTimer now id s).1 ≤ countRunning s := by
  rcases stopTimer_fst_cases now id s with h | ⟨entry, _, _, h⟩
  · rw [h]
  · rw [h]
    apply countRunning_update_le
    intro e
    rfl

lemma countRunning_le_stopTimer_add_one (now : Int) (id : String)
    (s : List TimeEntry) :
    countRunning s ≤ countRunning (stopTimer now id s).1 + 1 := by
  rcases stopTimer_fst_cases now id s with h | ⟨entry, _, _, h⟩
  · rw [h]; omega
  · rw [h]
    exact countRunning_le_update_add_one _ _ s

lemma ids_stopTimer (now : Int) (id : String) (s : List TimeEntry) :
    ids (stopTimer now id s).1 = ids s := by
  rcases stopTimer_fst_cases now id s with h | ⟨entry, _, _, h⟩
  · rw [h]
  · rw [h]
    apply ids_update
    intro e
    rfl

lemma ids_stopAllTimers (now : Int) (s : List TimeEntry) :
    ids (stopAllTimers now s) = ids s := by
  unfold stopAllTimers
  cases h : getRunningEntry s with
  | none => rfl
  | some e => exact ids_stopTimer now e.id s

lemma countRunning_stopAllTimers_le (now : Int) (s : List TimeEntry) :
    countRunning (stopAllTimers now s) ≤ countRunning s := by
  unfold stopAllTimers
  cases h : getRunningEntry s with
  | none => exact le_refl _
  | some e => exact countRunning_stopTimer_le now e.id s

lemma countRunning_le_stopAllTimers_add_one (now : Int) (s : List TimeEntry) :
    countRunning s ≤ countRunning (stopAllTimers now s) + 1 := by
  unfold stopAllTimers
  cases h : getRunningEntry s with
  | none => exact Nat.le_succ _
  | some e => exact countRunning_le_stopTimer_add_one now e.id s

/-- When there is no running entry at all, countRunning is zero. -/
lemma countRunning_eq_zero_of_getRunningEntry_none (s : List TimeEntry)
    (h : getRunningEntry s = none) : countRunning s = 0 := by
  rw [getRunningEntry, List.find?_eq_none] at h
  simp only [countRunning, List.length_eq_zero, List.filter_eq_nil_iff]
  intro e he
  exact h e he

/-- With pairwise-distinct ids, looking up a member entry by its own id
finds that entry. -/
lemma getById_of_mem_nodup {s : List TimeEntry} {e : TimeEntry}
    (hnd : (ids s).Nodup) (he : e ∈ s) : getById e.id s = some e := by
  induction s with
  | nil => cases he
  | cons a rest ih =>
    rcases List.mem_cons.1 he with rfl | hmem
    · simp [getById]
    · have hne : ¬(a.id == e.id) := by
        simp only [ids, List.map_cons, List.nodup_cons] at hnd
        intro hc
        exact hnd.1 (by
          rw [beq_iff_eq] at hc
          rw [hc]
          exact List.mem_map_of_mem _ hmem)
      have hrest : (ids rest).Nodup := by
        simp only [ids, List.map_cons, List.nodup_cons] at hnd
        exact hnd.2
      simp only [getById, List.find?_cons, hne, if_neg]
      simpa [getById] using ih hrest hmem

lemma getRunningEntry_mem_running {s : List TimeEntry} {e : TimeEntry}
    (h : getRunningEntry s = some e) : e ∈ s ∧ e.isRunning = true :=
  ⟨List.mem_of_find?_eq_some h, by simpa using List.find?_some h⟩

lemma getRunningEntry_eq_none_iff (s : List TimeEntry) :
    getRunningEntry s = none ↔ countRunning s = 0 := by
  rw [getRunningEntry, List.find?_eq_none]
  constructor
  · intro h
    simp only [countRunning, List.length_eq_zero, List.filter_eq_nil_iff]
    exact h
  · intro h x hx
    simp only [countRunning, List.length_eq_zero, List.filter_eq_nil_iff] at h
    exact h x hx

lemma countRunning_pos_of_mem {s : List TimeEntry} {e : TimeEntry}
    (he : e ∈ s) (hr : e.isRunning = true) : 1 ≤ countRunning s := by
  have : e ∈ s.filter (fun x => x.isRunning) := by
    rw [List.mem_filter]
    exact ⟨he, hr⟩
  have := List.length_pos_of_mem this
  simpa [countRunning] using this

/-- When the entry found by getById is running and the update function
clears isRunning, update removes exactly one running entry. -/
lemma countRunning_update_of_found (id : String) (f : TimeEntry → TimeEntry)
    (hf : ∀ e, (f e).isRunning = false) {s : List TimeEntry} {e : TimeEntry}
    (h : getById id s = some e) (hr : e.isRunning = true) :
    countRunning (update id f s).1 + 1 = countRunning s := by
  induction s with
  | nil => simp [getById] at h
  | cons a rest ih =>
    by_cases hid : a.id == id
    · have ha : a = e := by
        simp only [getById, List.find?_cons, hid, if_pos] at h
        exact Option.some.inj h
      have hfst : (update id f (a :: rest)).1 = f a :: rest := by
        simp [update, hid]
      rw [hfst, countRunning_cons, countRunning_cons, hf, ha, hr]
      simp
      omega
    · have hrest : getById id rest = some e := by
        simpa [getById, List.find?_cons, hid] using h
      have hfst : (update id f (a :: rest)).1 = a :: (update id f rest).1 := by
        simp [update, hid]
      rw [hfst, countRunning_cons, countRunning_cons]
      have := ih hrest
      omega

/-- From a store with distinct ids and at least one running entry,
stopAllTimers stops exactly one entry (the first running one). -/
lemma countRunning_stopAllTimers_nodup (now : Int) {s : List TimeEntry}
    (hnd : (ids s).Nodup) (hpos : 1 ≤ countRunning s) :
    countRunning (stopAllTimers now s) + 1 = countRunning s := by
  unfold stopAllTimers
  cases h : getRunningEntry s with
  | none =>
    rw [getRunningEntry_eq_none_iff] at h
    omega
  | some e =>
    show countRunning (stopTimer now e.id s).1 + 1 = countRunning s
    obtain ⟨hmem, hrun⟩ := getRunningEntry_mem_running h
    have hfind : getById e.id s = some e := getById_of_mem_nodup hnd hmem
    rcases stopTimer_cases now e.id s with ⟨hn, _⟩ | ⟨entry, h1, h2, _⟩ | ⟨entry, h1, h2, heq⟩
    · rw [hn] at hfind
      cases hfind
    · rw [h1] at hfind
      cases hfind
      rw [hrun] at h2
      cases h2
    · rw [heq]
      rw [hfind] at h1
      obtain rfl := (Option.some.inj h1).symm
      exact countRunning_update_of_found _ _
        (fun x => stopPatch_isRunning now entry x) hfind hrun

/-- From a well-formed store (distinct ids, at most one running entry),
stopAllTimers leaves no running entry. -/
lemma countRunning_stopAllTimers_eq_zero (now : Int) {s : List TimeEntry}
    (hnd : (ids s).Nodup) (hone : countRunning s ≤ 1) :
    countRunning (stopAllTimers now s) = 0 := by
  by_cases hpos : 1 ≤ countRunning s
  · have := countRunning_stopAllTimers_nodup now hnd hpos
    omega
  · have hz : countRunning s = 0 := by omega
    rw [← getRunningEntry_eq_none_iff] at hz
    unfold stopAllTimers
    rw [hz]
    rw [getRunningEntry_eq_none_iff] at hz
    exact hz

lemma ids_startTimer (now : Int) (newId projectId : String)
    (taskId : Option String) (tags : List String) (s : List TimeEntry) :
    ids (startTimer now newId projectId taskId tags s).1 =
      ids (stopAllTimers now s) ++ [newId] := by
  simp [startTimer, startEntry, create, ids]

lemma countRunning_startTimer (now : Int) (newId projectId : String)
    (taskId : Option String) (tags : List String) (s : List TimeEntry) :
    countRunning (startTimer now newId projectId taskId tags s).1 =
      countRunning (stopAllTimers now s) + 1 := by
  simp only [startTimer, create]
  rw [countRunning_append]
  rfl

/-- One public timer call preserves well-formedness: distinct ids and at
most one running entry. -/
lemma timerCall_wf {s t : List TimeEntry} (h : TimerCall s t)
    (hnd : (ids s).Nodup) (hone : countRunning s ≤ 1) :
    (ids t).Nodup ∧ countRunning t ≤ 1 := by
  cases h with
  | start now newId projectId taskId tags s hfresh =>
    constructor
    · rw [ids_startTimer, List.nodup_append]
      refine ⟨by rw [ids_stopAllTimers]; exact hnd, List.nodup_singleton _, ?_⟩
      intro a ha hb
      rw [List.mem_singleton] at hb
      rw [ids_stopAllTimers] at ha
      rw [hb] at ha
      exact hfresh ha
    · rw [countRunning_startTimer, countRunning_stopAllTimers_eq_zero now hnd hone]
  | stop now id s =>
    exact ⟨by rw [ids_stopTimer]; exact hnd,
      le_trans (countRunning_stopTimer_le now id s) hone⟩

/-- A whole trace of timer calls preserves well-formedness. -/
lemma timerTrace_wf {s t : List TimeEntry} (h : TimerTrace s t)
    (hnd : (ids s).Nodup) (hone : countRunning s ≤ 1) :
    (ids t).Nodup ∧ countRunning t ≤ 1 := by
  induction h with
  | refl => exact ⟨hnd, hone⟩
  | step htrace hcall ih => exact timerCall_wf hcall ih.1 ih.2

/-- C2: starting from a store whose entry ids are pairwise distinct (the
data model's unique-id invariant) and which contains at most one running
entry, every sequence of startTimer and stopTimer calls (with generateId
producing fresh ids) leaves at most one entry with isRunning true after
each call; moreover startTimer's initial stopAllTimers pass leaves no
running entry at all before the new entry is created. -/
theorem single_running_invariant (s t : List TimeEntry)
    (htrace : TimerTrace s t) (hnd : (ids s).Nodup)
    (hone : countRunning s ≤ 1) :
    countRunning t ≤ 1 ∧
      ∀ now : Int, countRunning (stopAllTimers now t) = 0 := by
  obtain ⟨hnd', hone'⟩ := timerTrace_wf htrace hnd hone
  exact ⟨hone', fun now => countRunning_stopAllTimers_eq_zero now hnd' hone'⟩

/-- Witness for C2: from the empty store, two successive startTimer calls
leave exactly the second entry running. -/
theorem single_running_invariant_witness :
    countRunning
        (startTimer 2000 "b" "q" none []
          ((startTimer 1000 "a" "p" none [] []).1)).1 ≤ 1 :=
  (single_running_invariant []
    (startTimer 2000 "b" "q" none [] ((startTimer 1000 "a" "p" none [] []).1)).1
    (TimerTrace.step
      (TimerTrace.step (TimerTrace.refl [])
        (TimerCall.start 1000 "a" "p" none [] [] (by decide)))
      (TimerCall.start 2000 "b" "q" none [] _ (by decide)))
    (by decide) (by decide)).1

/-- After update on the id (with an id-preserving update function), looking
the id up finds the updated entry. -/
lemma getById_update_self (id : String) (f : TimeEntry → TimeEntry)
    (hf : ∀ e, (f e).id = e.id) {s : List TimeEntry} {e : TimeEntry}
    (h : getById id s = some e) :
    getById id (update id f s).1 = some (f e) := by
  induction s with
  | nil => simp [getById] at h
  | cons a rest ih =>
    by_cases hid : a.id == id
    · have ha : a = e := by
        simp only [getById, List.find?_cons, hid, if_pos] at h
        exact Option.some.inj h
      have hfst : (update id f (a :: rest)).1 = f a :: rest := by
        simp [update, hid]
      rw [hfst, ha]
      have : ((f e).id == id) = true := by
        rw [hf e]
        rw [← ha]
        exact hid
      simp [getById, List.find?_cons, this]
    · have hrest : getById id rest = some e := by
        simpa [getById, List.find?_cons, hid] using h
      have hfst : (update id f (a :: rest)).1 = a :: (update id f rest).1 := by
        simp [update, hid]
      rw [hfst]
      simp only [getById, List.find?_cons, hid]
      simpa [getById] using ih hrest

/-- C3: stopping an absent or non-running entry is a no-op that returns the
undefined sentinel and leaves the whole store unchanged; consequently a
second stopTimer call on the same id (after any first call) changes nothing
and never alters the duration written by a successful first stop. -/
theorem stopTimer_noop_idempotent (s : List TimeEntry) (id : String)
    (t1 t2 : Int) :
    ((getById id s = none ∨
        ∃ e, getById id s = some e ∧ e.isRunning = false) →
      stopTimer t1 id s = (s, none)) ∧
    stopTimer t2 id (stopTimer t1 id s).1 = ((stopTimer t1 id s).1, none) := by
  constructor
  · intro h
    rcases h with h | ⟨e, he, hr⟩
    · simp [stopTimer, h]
    · simp [stopTimer, he, hr]
  · rcases stopTimer_cases t1 id s with ⟨hn, heq⟩ | ⟨e, he, hr, heq⟩ |
      ⟨e, he, hr, heq⟩
    · rw [heq]
      simp [stopTimer, hn]
    · rw [heq]
      simp [stopTimer, he, hr]
    · have hlook : getById id (stopTimer t1 id s).1 =
          some (stopPatch t1 e e) := by
        rw [heq]
        exact getById_update_self id (stopPatch t1 e)
          (fun x => stopPatch_id t1 e x) he
      generalize (stopTimer t1 id s).1 = s1 at hlook ⊢
      simp [stopTimer, hlook, stopPatch_isRunning]

/-- Witness for C3: stopping a non-running entry concretely returns the
sentinel and leaves the store unchanged, and a repeated stop is a no-op. -/
theorem stopTimer_noop_idempotent_witness :
    (stopTimer 500 "a" [stoppedEntry] = ([stoppedEntry], none)) ∧
    (stopTimer 900 "a" (stopTimer 500 "a" [stoppedEntry]).1 =
      ((stopTimer 500 "a" [stoppedEntry]).1, none)) :=
  ⟨(stopTimer_noop_idempotent [stoppedEntry] "a" 500 900).1
      (Or.inr ⟨stoppedEntry, by decide, rfl⟩),
    (stopTimer_noop_idempotent [stoppedEntry] "a" 500 900).2⟩

lemma getById_append_fresh (id : String) {s1 : List TimeEntry}
    (e : TimeEntry) (hfresh : id ∉ ids s1) (hid : e.id = id) :
    getById id (s1 ++ [e]) = some e := by
  induction s1 with
  | nil => simp [getById, List.find?_cons, hid]
  | cons a rest ih =>
    have hne : (a.id == id) = false := by
      rw [beq_eq_false_iff_ne]
      intro hc
      exact hfresh (by rw [← hc]; exact List.mem_map_of_mem _ (by simp))
    have hfr : id ∉ ids rest := by
      intro hc
      exact hfresh (by simp [ids] at hc ⊢; tauto)
    simp only [List.cons_append, getById, List.find?_cons, hne]
    simpa [getById] using ih hfr

lemma update_append_fresh (id : String) (f : TimeEntry → TimeEntry)
    {s1 : List TimeEntry} (e : TimeEntry) (hfresh : id ∉ ids s1)
    (hid : e.id = id) :
    update id f (s1 ++ [e]) = (s1 ++ [f e], some (f e)) := by
  induction s1 with
  | nil => simp [update, hid]
  | cons a rest ih =>
    have hne : (a.id == id) = false := by
      rw [beq_eq_false_iff_ne]
      intro hc
      exact hfresh (by rw [← hc]; exact List.mem_map_of_mem _ (by simp))
    have hfr : id ∉ ids rest := by
      intro hc
      exact hfresh (by simp [ids] at hc ⊢; tauto)
    have hstep : update id f ((a :: rest) ++ [e]) =
        (a :: (update id f (rest ++ [e])).1, (update id f (rest ++ [e])).2) :=
      by simp [update, hne]
    rw [hstep, ih hfr]
    simp

/-- Stopping a running entry that sits, with a fresh id, at the end of the
store stops exactly that entry. -/
lemma stopTimer_append_fresh (now : Int) {s1 : List TimeEntry}
    (e : TimeEntry) (hfresh : e.id ∉ ids s1) (hrun : e.isRunning = true) :
    stopTimer now e.id (s1 ++ [e]) =
      (s1 ++ [stopPatch now e e], some (stopPatch now e e)) := by
  have hlook : getById e.id (s1 ++ [e]) = some e :=
    getById_append_fresh e.id e hfresh rfl
  simp only [stopTimer, hlook, hrun, if_true]
  exact update_append_fresh e.id (stopPatch now e) e hfresh rfl

/-- C4: starting a timer (with a generateId result that does not collide
with a stored id) and then stopping the returned id yields, both as the
stopTimer result and on a subsequent read, an entry that is no longer
running, whose endTime is the stop instant, whose duration is the floor of
the elapsed time in seconds, and whose duration is nonnegative whenever the
stop instant is not earlier than the start instant. -/
theorem start_stop_round_trip (s : List TimeEntry) (t1 t2 : Int)
    (newId projectId : String) (taskId : Option String) (tags : List String)
    (hfresh : newId ∉ ids s) (hle : t1 ≤ t2) :
    ∃ e : TimeEntry,
      (stopTimer t2 (startTimer t1 newId projectId taskId tags s).2.id
          (startTimer t1 newId projectId taskId tags s).1).2 = some e ∧
      getById (startTimer t1 newId projectId taskId tags s).2.id
        (stopTimer t2 (startTimer t1 newId projectId taskId tags s).2.id
          (startTimer t1 newId projectId taskId tags s).1).1 = some e ∧
      e.isRunning = false ∧ e.endTime = some t2 ∧ e.startTime = t1 ∧
      e.duration = (t2 - t1).fdiv 1000 ∧ 0 ≤ e.duration := by
  have hfresh1 : newId ∉ ids (stopAllTimers t1 s) := by
    rw [ids_stopAllTimers]
    exact hfresh
  have hstop := stopTimer_append_fresh t2
    (startEntry t1 newId projectId taskId tags) hfresh1 rfl
  have hid : (startEntry t1 newId projectId taskId tags).id = newId := rfl
  rw [hid] at hstop
  refine ⟨stopPatch t2 (startEntry t1 newId projectId taskId tags)
      (startEntry t1 newId projectId taskId tags), ?_, ?_, rfl, rfl, rfl,
      rfl, ?_⟩
  · show (stopTimer t2 newId (stopAllTimers t1 s ++
        [startEntry t1 newId projectId taskId tags])).2 = _
    rw [hstop]
  · show getById newId
        (stopTimer t2 newId (stopAllTimers t1 s ++
          [startEntry t1 newId projectId taskId tags])).1 = _
    rw [hstop]
    exact getById_append_fresh newId _ hfresh1 rfl
  · show (0 : Int) ≤ (t2 - t1).fdiv 1000
    exact Int.fdiv_nonneg (by omega) (by norm_num)

/-- Witness for C4: a concrete round trip from the empty store, starting at
time 0 and stopping at time 1500 milliseconds. -/
theorem start_stop_round_trip_witness :
    ∃ e : TimeEntry,
      (stopTimer 1500 (startTimer 0 "a" "p" none [] []).2.id
          (startTimer 0 "a" "p" none [] []).1).2 = some e ∧
      getById (startTimer 0 "a" "p" none [] []).2.id
        (stopTimer 1500 (startTimer 0 "a" "p" none [] []).2.id
          (startTimer 0 "a" "p" none [] []).1).1 = some e ∧
      e.isRunning = false ∧ e.endTime = some 1500 ∧ e.startTime = 0 ∧
      e.duration = (1500 - 0 : Int).fdiv 1000 ∧ 0 ≤ e.duration :=
  start_stop_round_trip [] 0 1500 "a" "p" none [] (by decide) (by decide)

/-- C10: from a corrupted store that already has two or more running
entries, startTimer (which stops at most the first running entry before
appending its new running entry) never lowers the number of running entries
and in particular leaves at least two entries running: the single-running
invariant is never repaired from a corrupted state. -/
theorem startTimer_never_repairs (s : List TimeEntry) (now : Int)
    (newId projectId : String) (taskId : Option String) (tags : List String)
    (h2 : 2 ≤ countRunning s) :
    countRunning s ≤
      countRunning (startTimer now newId projectId taskId tags s).1 ∧
    2 ≤ countRunning (startTimer now newId projectId taskId tags s).1 := by
  have hcnt := countRunning_startTimer now newId projectId taskId tags s
  have hge := countRunning_le_stopAllTimers_add_one now s
  constructor <;> omega

/-- Witness for C10: a concrete store with two running entries still has
two running entries after a startTimer call. -/
theorem startTimer_never_repairs_witness :
    2 ≤ countRunning
        (startTimer 1000 "c" "q" none [] [runningA, runningB]).1 :=
  (startTimer_never_repairs [runningA, runningB] 1000 "c" "q" none []
    (by decide)).2

/-- The result of a JavaScript floating-point operation: a finite value
(modelled exactly as a rational), NaN, or a signed infinity. -/
inductive JsNum where
  | num (q : ℚ)
  | nan
  | posInf
  | negInf
deriving DecidableEq

/-- JavaScript division of finite operands, with its NaN (zero over zero)
and signed-infinity (nonzero over zero) results. -/
def jsDiv (a b : ℚ) : JsNum :=
  if b = 0 then
    if a = 0 then JsNum.nan else if 0 < a then JsNum.posInf else JsNum.negInf
  else JsNum.num (a / b)

/-- Multiplication of a JavaScript number by a finite constant. -/
def jsMul (x : JsNum) (c : ℚ) : JsNum :=
  match x with
  | JsNum.num q => JsNum.num (q * c)
  | JsNum.nan => JsNum.nan
  | JsNum.posInf =>
    if 0 < c then JsNum.posInf else if c = 0 then JsNum.nan else JsNum.negInf
  | JsNum.negInf =>
    if 0 < c then JsNum.negInf else if c = 0 then JsNum.nan else JsNum.posInf

/-- JavaScript greater-than against a finite constant (false on NaN). -/
def jsGtC (x : JsNum) (c : ℚ) : Bool :=
  match x with
  | JsNum.num q => decide (c < q)
  | JsNum.nan => false
  | JsNum.posInf => true
  | JsNum.negInf => false

/-- JavaScript less-than against a finite constant (false on NaN). -/
def jsLtC (x : JsNum) (c : ℚ) : Bool :=
  match x with
  | JsNum.num q => decide (q < c)
  | JsNum.nan => false
  | JsNum.posInf => false
  | JsNum.negInf => true

/-- The fields of a stored time entry that the report engine reads.
duration is in seconds (a JavaScript number, modelled exactly as a
rational); startDay is the integer calendar day of startTime, modelling
the ISO date string that the source derives from startTime. -/
structure TimeEntryR where
  projectId : String
  duration : ℚ
  tags : List String
  startDay : Int
deriving DecidableEq

/-- A project record as the report consults it (id and display name). -/
structure Project where
  id : String
  name : String
deriving DecidableEq

/-- A JavaScript Map in insertion order: set replaces the value at an
existing key in place, otherwise appends the new key at the end. -/
def mapSet {κ : Type} [DecidableEq κ] (k : κ) (v : ℚ) :
    List (κ × ℚ) → List (κ × ℚ)
  | [] => [(k, v)]
  | (k2, v2) :: rest =>
    if k2 = k then (k, v) :: rest else (k2, v2) :: mapSet k v rest

/-- Map.get; none models undefined. -/
def mapGet {κ : Type} [DecidableEq κ] (k : κ) : List (κ × ℚ) → Option ℚ
  | [] => none
  | (k2, v2) :: rest => if k2 = k then some v2 else mapGet k rest

/-- The grouping loops of generateReport: each entry adds its duration to
the bucket of its key, starting from the bucket's current value or 0. -/
def groupSum {κ : Type} [DecidableEq κ] (key : TimeEntryR → κ)
    (entries : List TimeEntryR) : List (κ × ℚ) :=
  entries.foldl
    (fun m e => mapSet (key e) ((mapGet (key e) m).getD 0 + e.duration) m) []

/-- The tag grouping loop: each entry adds its duration to the bucket of
every tag it carries (many-to-many fan-out). -/
def tagMapOf (entries : List TimeEntryR) : List (String × ℚ) :=
  entries.foldl
    (fun m e => e.tags.foldl
      (fun m2 t => mapSet t ((mapGet t m2).getD 0 + e.duration) m2) m) []

/-- One row of the per-project breakdown. -/
structure ProjectRow where
  projectId : String
  projectName : String
  hours : ℚ
  percentage : JsNum
deriving DecidableEq

/-- One row of the per-tag breakdown. -/
structure TagRow where
  tag : String
  hours : ℚ
  percentage : JsNum
deriving DecidableEq

/-- One row of the per-day breakdown. -/
structure DayRow where
  date : Int
  hours : ℚ
deriving DecidableEq

/-- The best-day result; date none models the empty-string sentinel of the
initial reduce accumulator. -/
structure BestDay where
  date : Option Int
  hours : ℚ
deriving DecidableEq

/-- The Report value object of generateReport. -/
structure Report where
  period : String
  startDate : Int
  endDate : Int
  totalHours : ℚ
  projectBreakdown : List ProjectRow
  tagBreakdown : List TagRow
  dailyBreakdown : List DayRow
  bestDay : BestDay
  averageHoursPerDay : JsNum
  nextWeekHours : JsNum
  trend : String
deriving DecidableEq

/-- ReportGenerator.generatePrediction: next week hours are the daily
average times 7 times 1.1; trend is up above 6 hours per day, down below
3, else stable. -/
def generatePrediction (averageHoursPerDay : JsNum) : JsNum × String :=
  let nextWeekHours := jsMul (jsMul averageHoursPerDay 7) (11 / 10)
  let trend :=
    if jsGtC averageHoursPerDay 6 then "up"
    else if jsLtC averageHoursPerDay 3 then "down"
    else "stable"
  (nextWeekHours, trend)

/-- The reduce of generateReport computing the total seconds of the entry
set. -/
def totalSecondsOf (entries : List TimeEntryR) : ℚ :=
  entries.foldl (fun sum e => sum + e.duration) 0

/-- ReportGenerator.generateReport over the snapshot of entries whose
start time lies in the window (the getEntriesByDateRange result) and the
stored project list.  The sorts model the stable JavaScript array sort
with the source's comparators. -/
def generateReport (period : String) (startMs endMs : Int)
    (entries : List TimeEntryR) (projects : List Project) : Report :=
  let totalSeconds : ℚ := totalSecondsOf entries
  let totalHours := totalSeconds / 3600
  let projectMap := groupSum (fun e => e.projectId) entries
  let projectBreakdown :=
    (projectMap.map (fun kv =>
      ({ projectId := kv.1,
         projectName :=
           ((projects.find? (fun p => p.id == kv.1)).map
             (fun p => p.name)).getD "Unknown Project",
         hours := kv.2 / 3600,
         percentage := jsMul (jsDiv kv.2 totalSeconds) 100 } :
        ProjectRow))).mergeSort (fun a b => decide (b.hours ≤ a.hours))
  let tagMap := tagMapOf entries
  let tagBreakdown :=
    (tagMap.map (fun kv =>
      ({ tag := kv.1, hours := kv.2 / 3600,
         percentage := jsMul (jsDiv kv.2 totalSeconds) 100 } :
        TagRow))).mergeSort (fun a b => decide (b.hours ≤ a.hours))
  let dailyMap := groupSum (fun e => e.startDay) entries
  let dailyBreakdown :=
    (dailyMap.map (fun kv =>
      ({ date := kv.1, hours := kv.2 / 3600 } : DayRow))).mergeSort
      (fun a b => decide (a.date ≤ b.date))
  let bestDay := dailyBreakdown.foldl
    (fun best day =>
      if best.hours < day.hours then
        { date := some day.date, hours := day.hours }
      else best)
    ({ date := none, hours := 0 } : BestDay)
  let daysDiff : Int := ⌈((endMs - startMs : ℚ) / 86400000)⌉
  let averageHoursPerDay := jsDiv totalHours (daysDiff : ℚ)
  let prediction := generatePrediction averageHoursPerDay
  { period := period
    startDate := startMs
    endDate := endMs
    totalHours := totalHours
    projectBreakdown := projectBreakdown
    tagBreakdown := tagBreakdown
    dailyBreakdown := dailyBreakdown
    bestDay := bestDay
    averageHoursPerDay := averageHoursPerDay
    nextWeekHours := prediction.1
    trend := prediction.2 }

/-- A week window at day granularity, with the milliseconds into the day
at each end (setHours 0,0,0,0 and setHours 23,59,59,999). -/
structure WeekWindow where
  startDay : Int
  startMsOfDay : Int
  endDay : Int
  endMsOfDay : Int
deriving DecidableEq

/-- JavaScript getDay on a day index: 0 is Sunday; day 0 of the epoch
(1970-01-01) is a Thursday, weekday 4. -/
def jsGetDay (d : Int) : Int := (d + 4) % 7

/-- The window computation of ReportGenerator.generateWeekReport: back up
to Monday (six days back when the weekday is Sunday, otherwise weekday
minus one), zero the time of day, and end six days later at 23:59:59.999;
the report itself is generateReport applied to this window. -/
def generateWeekReportWindow (d : Int) : WeekWindow :=
  let dayOfWeek := jsGetDay d
  let diff := if dayOfWeek = 0 then 6 else dayOfWeek - 1
  let start := d - diff
  { startDay := start
    startMsOfDay := 0
    endDay := start + 6
    endMsOfDay := 86399999 }

/-- The level bucketing of generateHeatmapData. -/
def levelOf (hours maxHours : ℚ) : Nat :=
  if 0 < hours then
    if 3 / 4 ≤ hours / maxHours then 4
    else if 1 / 2 ≤ hours / maxHours then 3
    else if 1 / 4 ≤ hours / maxHours then 2
    else 1
  else 0

/-- One heatmap cell: date, hours, discretized level. -/
structure HeatmapCell where
  date : Int
  hours : ℚ
  level : Nat
deriving DecidableEq

/-- ReportGenerator.generateHeatmapData over the year's entries (the
getEntriesByDateRange result for Jan 1 to Dec 31) and the list of the
year's calendar days: group seconds by day, normalise by the busiest day
in hours with minimum denominator 1, and bucket into levels 0 to 4. -/
def generateHeatmapData (entries : List TimeEntryR) (yearDays : List Int) :
    List HeatmapCell :=
  let dateMap := groupSum (fun e => e.startDay) entries
  let maxHours := (dateMap.map (fun kv => kv.2 / 3600)).foldl max 1
  yearDays.map (fun d =>
    let seconds := (mapGet d dateMap).getD 0
    { date := d
      hours := seconds / 3600
      level := levelOf (seconds / 3600) maxHours })

/-- The busiest-day normaliser of generateHeatmapData, exposed for the
statement of the heatmap claim. -/
def maxHoursOf (entries : List TimeEntryR) : ℚ :=
  ((groupSum (fun e => e.startDay) entries).map
    (fun kv => kv.2 / 3600)).foldl max 1

/-- Insert a day into a strictly descending list of distinct days. -/
def insertDesc (d : Int) : List Int → List Int
  | [] => [d]
  | x :: xs =>
    if d > x then d :: x :: xs
    else if d = x then x :: xs
    else x :: insertDesc d xs

/-- The distinct activity dates sorted descending (Array.from of the Set
of date strings, sorted ascending, then reversed). -/
def sortedDatesOf (days : List Int) : List Int :=
  days.foldr insertDesc []

/-- The current-streak loop of calculateStreak: starting at offset i with
the given fuel (the number of distinct dates), count the consecutive days
present counting back from today, stopping at the first absent one. -/
def currentLoop (sorted : List Int) (today : Int) : Nat → Nat → Nat
  | _, 0 => 0
  | i, fuel + 1 =>
    if sorted.contains (today - (i : Int)) then
      currentLoop sorted today (i + 1) fuel + 1
    else 0

/-- The longest-streak loop of calculateStreak: walk the descending date
list, growing the tentative run while consecutive dates differ by exactly
one day and recording the best run grown by such a step. -/
def longestLoop : List Int → Int → Nat → Nat → Nat
  | [], _, _, best => best
  | curr :: rest, prev, temp, best =>
    if prev - curr = 1 then
      longestLoop rest curr (temp + 1) (max best (temp + 1))
    else longestLoop rest curr 1 best

/-- The streak pair returned by calculateStreak. -/
structure Streak where
  current : Nat
  longest : Nat
deriving DecidableEq

/-- ReportGenerator.calculateStreak over all stored entries, with today (a
midnight day index) passed explicitly in place of the ambient clock. -/
def calculateStreak (entries : List TimeEntryR) (today : Int) : Streak :=
  if entries = [] then { current := 0, longest := 0 }
  else
    let sortedDates := sortedDatesOf (entries.map (fun e => e.startDay))
    let currentStreak := currentLoop sortedDates today 0 sortedDates.length
    let longestStreak :=
      match sortedDates with
      | [] => 0
      | d :: rest => longestLoop rest d 1 0
    { current := currentStreak
      longest := max longestStreak currentStreak }

/-- Specification predicate (from the claim's wording): there are k
consecutive calendar days, ending at a day with activity, that all have
activity. -/
def hasRunB (days : List Int) (k : Nat) : Bool :=
  days.any (fun d =>
    (List.range k).all (fun i => days.contains (d - (i : Int))))

/-- Specification value, following the claim's words: the maximum run
length of consecutive calendar dates with entries across the history. -/
def specLongestRun (days : List Int) : Nat :=
  Nat.findGreatest (fun k => hasRunB days k = true) days.length

/-- The maximum length of a run of at least two consecutive days with
entries; zero when every activity day is isolated. -/
def specLongestRunTwo (days : List Int) : Nat :=
  Nat.findGreatest (fun k => 2 ≤ k ∧ hasRunB days k = true) days.length

/-- Specification value, following the claim's words: the number of
consecutive days with entries counting back from today (zero when today
has none). -/
def specCurrentStreak (days : List Int) (today : Int) : Nat :=
  Nat.findGreatest
    (fun k =>
      ((List.range k).all (fun i => days.contains (today - (i : Int)))) =
        true)
    days.length

/-- Lengths of the maximal segments of consecutive (stepping down by one)
values of a list, in order. -/
def runLengths : List Int → List Nat
  | [] => []
  | [_] => [1]
  | d :: d2 :: rest =>
    match runLengths (d2 :: rest) with
    | [] => [1]
    | r :: rs => if d - d2 = 1 then (r + 1) :: rs else 1 :: r :: rs

/-- Maximum of a list of naturals, zero for the empty list. -/
def maxList (l : List Nat) : Nat := l.foldr max 0

/-- The keys of an association-list map, in order. -/
def keysOf {κ : Type} (m : List (κ × ℚ)) : List κ := m.map Prod.fst

/-- The sum of all values of an association-list map. -/
def valuesSum {κ : Type} (m : List (κ × ℚ)) : ℚ :=
  (m.map (fun kv => kv.2)).sum

lemma mapGet_mapSet_self {κ : Type} [DecidableEq κ] (k : κ) (v : ℚ)
    (m : List (κ × ℚ)) : mapGet k (mapSet k v m) = some v := by
  induction m with
  | nil => simp [mapSet, mapGet]
  | cons kv rest ih =>
    obtain ⟨k2, v2⟩ := kv
    by_cases h : k2 = k
    · simp [mapSet, mapGet, h]
    · simp [mapSet, mapGet, h, ih]

lemma mapGet_mapSet_ne {κ : Type} [DecidableEq κ] {k2 k : κ} (v : ℚ)
    (m : List (κ × ℚ)) (h : k2 ≠ k) :
    mapGet k (mapSet k2 v m) = mapGet k m := by
  induction m with
  | nil => simp [mapSet, mapGet, h]
  | cons kv rest ih =>
    obtain ⟨k3, v3⟩ := kv
    by_cases h3 : k3 = k2
    · rw [h3]
      simp [mapSet, mapGet, h]
    · by_cases h4 : k3 = k <;>
        simp [mapSet, mapGet, h3, h4, ih, Ne.symm h]

lemma mapSet_cons_self {κ : Type} [DecidableEq κ] (k : κ) (v v2 : ℚ)
    (rest : List (κ × ℚ)) :
    mapSet k v ((k, v2) :: rest) = (k, v) :: rest := by
  simp [mapSet]

lemma mapSet_cons_ne {κ : Type} [DecidableEq κ] {k2 k : κ} (v v2 : ℚ)
    (rest : List (κ × ℚ)) (h : k2 ≠ k) :
    mapSet k v ((k2, v2) :: rest) = (k2, v2) :: mapSet k v rest := by
  simp [mapSet, h]

lemma valuesSum_cons {κ : Type} (kv : κ × ℚ) (m : List (κ × ℚ)) :
    valuesSum (kv :: m) = kv.2 + valuesSum m := by
  simp [valuesSum]

lemma keysOf_cons {κ : Type} (kv : κ × ℚ) (m : List (κ × ℚ)) :
    keysOf (kv :: m) = kv.1 :: keysOf m := rfl

lemma mem_keysOf_mapSet {κ : Type} [DecidableEq κ] {x k : κ} {v : ℚ}
    {m : List (κ × ℚ)} (h : x ∈ keysOf (mapSet k v m)) :
    x ∈ keysOf m ∨ x = k := by
  induction m with
  | nil => simpa [mapSet, keysOf] using h
  | cons kv rest ih =>
    obtain ⟨k2, v2⟩ := kv
    by_cases h2 : k2 = k
    · subst h2
      rw [mapSet_cons_self, keysOf_cons] at h
      rw [keysOf_cons]
      simp only [List.mem_cons] at h ⊢
      tauto
    · rw [mapSet_cons_ne _ _ _ h2, keysOf_cons] at h
      rw [keysOf_cons]
      simp only [List.mem_cons] at h ⊢
      rcases h with h | h
      · tauto
      · rcases ih h with h3 | h3
        · tauto
        · tauto

lemma keysOf_mapSet_nodup {κ : Type} [DecidableEq κ] (k : κ) (v : ℚ)
    {m : List (κ × ℚ)} (h : (keysOf m).Nodup) :
    (keysOf (mapSet k v m)).Nodup := by
  induction m with
  | nil => simp [mapSet, keysOf]
  | cons kv rest ih =>
    obtain ⟨k2, v2⟩ := kv
    rw [keysOf_cons, List.nodup_cons] at h
    by_cases h2 : k2 = k
    · subst h2
      rw [mapSet_cons_self, keysOf_cons, List.nodup_cons]
      exact h
    · rw [mapSet_cons_ne _ _ _ h2, keysOf_cons, List.nodup_cons]
      refine ⟨?_, ih h.2⟩
      intro hc
      rcases mem_keysOf_mapSet hc with h3 | h3
      · exact h.1 h3
      · exact h2 h3

lemma mapGet_of_mem_nodup {κ : Type} [DecidableEq κ] {m : List (κ × ℚ)}
    {k : κ} {v : ℚ} (hnd : (keysOf m).Nodup) (hm : (k, v) ∈ m) :
    mapGet k m = some v := by
  induction m with
  | nil => cases hm
  | cons kv rest ih =>
    obtain ⟨k2, v2⟩ := kv
    rw [keysOf_cons, List.nodup_cons] at hnd
    rcases List.mem_cons.1 hm with h | h
    · cases h
      simp [mapGet]
    · have hk2 : k2 ≠ k := by
        intro hc
        refine hnd.1 ?_
        rw [hc]
        simpa [keysOf] using List.mem_map_of_mem Prod.fst h
      simp [mapGet, hk2, ih hnd.2 h]

lemma valuesSum_mapSet {κ : Type} [DecidableEq κ] (k : κ) (v : ℚ)
    (m : List (κ × ℚ)) :
    valuesSum (mapSet k v m) = valuesSum m + v - (mapGet k m).getD 0 := by
  induction m with
  | nil => simp [mapSet, mapGet, valuesSum]
  | cons kv rest ih =>
    obtain ⟨k2, v2⟩ := kv
    by_cases h : k2 = k
    · subst h
      rw [mapSet_cons_self, valuesSum_cons, valuesSum_cons]
      have hg : mapGet k2 ((k2, v2) :: rest) = some v2 := by
        simp [mapGet]
      rw [hg]
      simp only [Option.getD_some]
      ring
    · have hg : mapGet k ((k2, v2) :: rest) = mapGet k rest := by
        simp [mapGet, h]
      rw [mapSet_cons_ne _ _ _ h, valuesSum_cons, valuesSum_cons, hg, ih]
      ring

lemma groupSum_get_aux {κ : Type} [DecidableEq κ] (key : TimeEntryR → κ)
    (k : κ) (entries : List TimeEntryR) :
    ∀ m : List (κ × ℚ),
      (mapGet k (entries.foldl
        (fun m e =>
          mapSet (key e) ((mapGet (key e) m).getD 0 + e.duration) m)
        m)).getD 0 =
      (mapGet k m).getD 0 +
        ((entries.filter (fun e => key e = k)).map
          (fun e => e.duration)).sum := by
  induction entries with
  | nil =>
    intro m
    simp
  | cons e rest ih =>
    intro m
    rw [List.foldl_cons, ih]
    by_cases hk : key e = k
    · rw [hk, mapGet_mapSet_self]
      simp [List.filter_cons, hk]
      ring
    · rw [mapGet_mapSet_ne _ _ hk]
      simp [List.filter_cons, hk]

/-- The value a grouping loop accumulates at key k is the sum of the
durations of the entries whose key is k. -/
lemma groupSum_get {κ : Type} [DecidableEq κ] (key : TimeEntryR → κ)
    (k : κ) (entries : List TimeEntryR) :
    (mapGet k (groupSum key entries)).getD 0 =
      ((entries.filter (fun e => key e = k)).map
        (fun e => e.duration)).sum := by
  have h := groupSum_get_aux key k entries []
  simpa [groupSum, mapGet] using h

lemma foldl_mapSet_keys_nodup {κ : Type} [DecidableEq κ]
    (key : TimeEntryR → κ) (entries : List TimeEntryR) :
    ∀ m : List (κ × ℚ), (keysOf m).Nodup →
      (keysOf (entries.foldl
        (fun m e =>
          mapSet (key e) ((mapGet (key e) m).getD 0 + e.duration) m)
        m)).Nodup := by
  induction entries with
  | nil =>
    intro m hm
    simpa using hm
  | cons e rest ih =>
    intro m hm
    rw [List.foldl_cons]
    exact ih _ (keysOf_mapSet_nodup _ _ hm)

lemma groupSum_keys_nodup {κ : Type} [DecidableEq κ]
    (key : TimeEntryR → κ) (entries : List TimeEntryR) :
    (keysOf (groupSum key entries)).Nodup :=
  foldl_mapSet_keys_nodup key entries [] (by simp [keysOf])

lemma foldl_mapSet_valuesSum {κ : Type} [DecidableEq κ]
    (key : TimeEntryR → κ) (entries : List TimeEntryR) :
    ∀ m : List (κ × ℚ),
      valuesSum (entries.foldl
        (fun m e =>
          mapSet (key e) ((mapGet (key e) m).getD 0 + e.duration) m) m) =
      valuesSum m + (entries.map (fun e => e.duration)).sum := by
  induction entries with
  | nil =>
    intro m
    simp
  | cons e rest ih =>
    intro m
    rw [List.foldl_cons, ih, valuesSum_mapSet]
    simp only [List.map_cons, List.sum_cons]
    ring

/-- Grouping conserves the total: the values of a grouping map sum to the
sum of all durations. -/
lemma valuesSum_groupSum {κ : Type} [DecidableEq κ]
    (key : TimeEntryR → κ) (entries : List TimeEntryR) :
    valuesSum (groupSum key entries) =
      (entries.map (fun e => e.duration)).sum := by
  have h := foldl_mapSet_valuesSum key entries []
  simpa [groupSum, valuesSum] using h

lemma mem_keysOf_mapSet_of_mem {κ : Type} [DecidableEq κ] {x : κ}
    (k : κ) (v : ℚ) {m : List (κ × ℚ)} (h : x ∈ keysOf m) :
    x ∈ keysOf (mapSet k v m) := by
  induction m with
  | nil => cases h
  | cons kv rest ih =>
    obtain ⟨k2, v2⟩ := kv
    rw [keysOf_cons, List.mem_cons] at h
    by_cases h2 : k2 = k
    · subst h2
      rw [mapSet_cons_self, keysOf_cons, List.mem_cons]
      rcases h with h | h
      · exact Or.inl h
      · exact Or.inr h
    · rw [mapSet_cons_ne _ _ _ h2, keysOf_cons, List.mem_cons]
      rcases h with h | h
      · exact Or.inl h
      · exact Or.inr (ih h)

lemma self_mem_keysOf_mapSet {κ : Type} [DecidableEq κ] (k : κ) (v : ℚ)
    (m : List (κ × ℚ)) : k ∈ keysOf (mapSet k v m) := by
  induction m with
  | nil => simp [mapSet, keysOf]
  | cons kv rest ih =>
    obtain ⟨k2, v2⟩ := kv
    by_cases h2 : k2 = k
    · subst h2
      rw [mapSet_cons_self, keysOf_cons]
      simp
    · rw [mapSet_cons_ne _ _ _ h2, keysOf_cons, List.mem_cons]
      exact Or.inr ih

lemma foldl_mapSet_keys_mono {κ : Type} [DecidableEq κ]
    (key : TimeEntryR → κ) (entries : List TimeEntryR) {x : κ} :
    ∀ m : List (κ × ℚ), x ∈ keysOf m →
      x ∈ keysOf (entries.foldl
        (fun m e =>
          mapSet (key e) ((mapGet (key e) m).getD 0 + e.duration) m) m) := by
  induction entries with
  | nil =>
    intro m hm
    simpa using hm
  | cons e rest ih =>
    intro m hm
    rw [List.foldl_cons]
    exact ih _ (mem_keysOf_mapSet_of_mem _ _ hm)

lemma groupSum_keys_mem_aux {κ : Type} [DecidableEq κ]
    (key : TimeEntryR → κ) {entries : List TimeEntryR} {e : TimeEntryR}
    (he : e ∈ entries) :
    ∀ m : List (κ × ℚ),
      key e ∈ keysOf (entries.foldl
        (fun m e =>
          mapSet (key e) ((mapGet (key e) m).getD 0 + e.duration) m) m) := by
  induction entries with
  | nil => cases he
  | cons e0 rest ih =>
    intro m
    rw [List.foldl_cons]
    rcases List.mem_cons.1 he with rfl | hmem
    · exact foldl_mapSet_keys_mono key rest _ (self_mem_keysOf_mapSet _ _ _)
    · exact ih hmem _

/-- Every entry's key appears in the grouping map. -/
lemma groupSum_keys_mem {κ : Type} [DecidableEq κ] (key : TimeEntryR → κ)
    {entries : List TimeEntryR} {e : TimeEntryR} (he : e ∈ entries) :
    key e ∈ keysOf (groupSum key entries) :=
  groupSum_keys_mem_aux key he []

lemma tagFold_get (t : String) (dur : ℚ) (tags : List String) :
    ∀ m2 : List (String × ℚ),
      (mapGet t (tags.foldl
        (fun m2 tg => mapSet tg ((mapGet tg m2).getD 0 + dur) m2)
        m2)).getD 0 =
      (mapGet t m2).getD 0 + dur * (tags.count t : ℚ) := by
  induction tags with
  | nil =>
    intro m2
    simp
  | cons tg rest ih =>
    intro m2
    rw [List.foldl_cons, ih]
    by_cases h : tg = t
    · rw [h, mapGet_mapSet_self]
      simp only [Option.getD_some]
      have hc : (t :: rest).count t = rest.count t + 1 := by
        simp [List.count_cons]
      rw [hc]
      push_cast
      ring
    · rw [mapGet_mapSet_ne _ _ h]
      have hc : (tg :: rest).count t = rest.count t := by
        simp [List.count_cons, h]
      rw [hc]

lemma tagMap_get_aux (t : String) (entries : List TimeEntryR) :
    ∀ m : List (String × ℚ),
      (mapGet t (entries.foldl
        (fun m e => e.tags.foldl
          (fun m2 tg => mapSet tg ((mapGet tg m2).getD 0 + e.duration) m2)
          m)
        m)).getD 0 =
      (mapGet t m).getD 0 +
        (entries.map (fun e => e.duration * (e.tags.count t : ℚ))).sum := by
  induction entries with
  | nil =>
    intro m
    simp
  | cons e rest ih =>
    intro m
    rw [List.foldl_cons, ih, tagFold_get]
    simp only [List.map_cons, List.sum_cons]
    ring

/-- The tag grouping accumulates, for each tag, the sum over all entries of
the entry's duration times the number of occurrences of that tag in the
entry's tag list. -/
lemma tagMap_get (entries : List TimeEntryR) (t : String) :
    (mapGet t (tagMapOf entries)).getD 0 =
      (entries.map (fun e => e.duration * (e.tags.count t : ℚ))).sum := by
  have h := tagMap_get_aux t entries []
  simpa [tagMapOf, mapGet] using h

lemma tagFold_keys_nodup (dur : ℚ) (tags : List String) :
    ∀ m2 : List (String × ℚ), (keysOf m2).Nodup →
      (keysOf (tags.foldl
        (fun m2 tg => mapSet tg ((mapGet tg m2).getD 0 + dur) m2)
        m2)).Nodup := by
  induction tags with
  | nil =>
    intro m2 hm
    simpa using hm
  | cons tg rest ih =>
    intro m2 hm
    rw [List.foldl_cons]
    exact ih _ (keysOf_mapSet_nodup _ _ hm)

lemma tagMapOf_keys_nodup (entries : List TimeEntryR) :
    (keysOf (tagMapOf entries)).Nodup := by
  have haux : ∀ m : List (String × ℚ), (keysOf m).Nodup →
      (keysOf (entries.foldl
        (fun m e => e.tags.foldl
          (fun m2 tg => mapSet tg ((mapGet tg m2).getD 0 + e.duration) m2)
          m)
        m)).Nodup := by
    induction entries with
    | nil =>
      intro m hm
      simpa using hm
    | cons e rest ih =>
      intro m hm
      rw [List.foldl_cons]
      exact ih _ (tagFold_keys_nodup _ _ _ hm)
  exact haux [] (by simp [keysOf])

lemma sum_map_filter_le {α : Type} (p : α → Bool) (g : α → ℚ)
    (l : List α) (hg : ∀ x ∈ l, 0 ≤ g x) :
    ((l.filter p).map g).sum ≤ (l.map g).sum := by
  induction l with
  | nil => simp
  | cons a rest ih =>
    have ha := hg a (by simp)
    have ihh := ih (fun x hx => hg x (by simp [hx]))
    by_cases hp : p a
    · simp only [List.filter_cons, hp, if_pos, List.map_cons, List.sum_cons]
      linarith
    · simp only [List.filter_cons, hp, Bool.false_eq_true, if_false,
        List.map_cons, List.sum_cons]
      linarith

lemma sum_map_nonneg {α : Type} (g : α → ℚ) (l : List α)
    (hg : ∀ x ∈ l, 0 ≤ g x) : 0 ≤ (l.map g).sum := by
  induction l with
  | nil => simp
  | cons a rest ih =>
    have ha := hg a (by simp)
    have ihh := ih (fun x hx => hg x (by simp [hx]))
    simp only [List.map_cons, List.sum_cons]
    linarith

lemma sum_map_eq_zero {α : Type} (g : α → ℚ) (l : List α)
    (hg : ∀ x ∈ l, 0 ≤ g x) (h : (l.map g).sum = 0) :
    ∀ x ∈ l, g x = 0 := by
  induction l with
  | nil =>
    intro x hx
    cases hx
  | cons a rest ih =>
    have ha := hg a (by simp)
    have hrest : 0 ≤ (rest.map g).sum :=
      sum_map_nonneg g rest (fun x hx => hg x (by simp [hx]))
    simp only [List.map_cons, List.sum_cons] at h
    intro x hx
    rcases List.mem_cons.1 hx with rfl | hx
    · linarith
    · exact ih (fun y hy => hg y (by simp [hy])) (by linarith) x hx

lemma sum_map_div {α : Type} (g : α → ℚ) (c : ℚ) (l : List α) :
    (l.map (fun x => g x / c)).sum = (l.map g).sum / c := by
  induction l with
  | nil => simp
  | cons a rest ih =>
    simp only [List.map_cons, List.sum_cons, ih]
    rw [add_div]

lemma totalSecondsOf_eq_sum (entries : List TimeEntryR) :
    totalSecondsOf entries = (entries.map (fun e => e.duration)).sum := by
  have haux : ∀ a : ℚ, entries.foldl (fun sum e => sum + e.duration) a =
      a + (entries.map (fun e => e.duration)).sum := by
    induction entries with
    | nil =>
      intro a
      simp
    | cons e rest ih =>
      intro a
      rw [List.foldl_cons, ih]
      simp only [List.map_cons, List.sum_cons]
      ring
  have h := haux 0
  simpa [totalSecondsOf] using h

lemma generateReport_totalHours (period : String) (startMs endMs : Int)
    (entries : List TimeEntryR) (projects : List Project) :
    (generateReport period startMs endMs entries projects).totalHours =
      totalSecondsOf entries / 3600 := rfl

lemma generateReport_projectBreakdown (period : String) (startMs endMs : Int)
    (entries : List TimeEntryR) (projects : List Project) :
    (generateReport period startMs endMs entries projects).projectBreakdown =
      ((groupSum (fun e => e.projectId) entries).map (fun kv =>
        ({ projectId := kv.1,
           projectName :=
             ((projects.find? (fun p => p.id == kv.1)).map
               (fun p => p.name)).getD "Unknown Project",
           hours := kv.2 / 3600,
           percentage :=
             jsMul (jsDiv kv.2 (totalSecondsOf entries)) 100 } :
          ProjectRow))).mergeSort (fun a b => decide (b.hours ≤ a.hours)) :=
  rfl

lemma generateReport_tagBreakdown (period : String) (startMs endMs : Int)
    (entries : List TimeEntryR) (projects : List Project) :
    (generateReport period startMs endMs entries projects).tagBreakdown =
      ((tagMapOf entries).map (fun kv =>
        ({ tag := kv.1, hours := kv.2 / 3600,
           percentage :=
             jsMul (jsDiv kv.2 (totalSecondsOf entries)) 100 } :
          TagRow))).mergeSort (fun a b => decide (b.hours ≤ a.hours)) :=
  rfl

/-- The value stored with a key of the grouping map is the sum of the
durations of the entries carrying that key. -/
lemma groupSum_mem_value {κ : Type} [DecidableEq κ] (key : TimeEntryR → κ)
    {entries : List TimeEntryR} {k : κ} {v : ℚ}
    (h : (k, v) ∈ groupSum key entries) :
    v = ((entries.filter (fun e => key e = k)).map
      (fun e => e.duration)).sum := by
  have hg := mapGet_of_mem_nodup (groupSum_keys_nodup key entries) h
  have hval := groupSum_get key k entries
  rw [hg] at hval
  simpa using hval

/-- The value stored with a tag in the tag map is the occurrence-weighted
sum of the durations. -/
lemma tagMap_mem_value {entries : List TimeEntryR} {t : String} {v : ℚ}
    (h : (t, v) ∈ tagMapOf entries) :
    v = (entries.map (fun e => e.duration * (e.tags.count t : ℚ))).sum := by
  have hg := mapGet_of_mem_nodup (tagMapOf_keys_nodup entries) h
  have hval := tagMap_get entries t
  rw [hg] at hval
  simpa using hval

lemma sum_count_eq_sum_filter (t : String) :
    ∀ entries : List TimeEntryR, (∀ e ∈ entries, e.tags.Nodup) →
      (entries.map (fun e => e.duration * (e.tags.count t : ℚ))).sum =
        ((entries.filter (fun e => t ∈ e.tags)).map
          (fun e => e.duration)).sum := by
  intro entries
  induction entries with
  | nil =>
    intro
    simp
  | cons e rest ih =>
    intro htags
    have he := htags e (by simp)
    have ihh := ih (fun x hx => htags x (by simp [hx]))
    by_cases hm : t ∈ e.tags
    · have hc : e.tags.count t = 1 := List.count_eq_one_of_mem he hm
      simp [List.filter_cons, hm, hc, ihh]
    · have hc : e.tags.count t = 0 := List.count_eq_zero.2 hm
      simp [List.filter_cons, hm, hc, ihh]

/-- A concrete entry with two distinct tags, used in the C7 witness. -/
def tagEntryAB : TimeEntryR :=
  { projectId := "p", duration := 10, tags := ["a", "b"], startDay := 0 }

/-- C7: with the data model's tag lists (sets of strings, hence free of
duplicates), every entry contributes its full duration to the bucket of
every tag it carries: for each tag, the seconds accumulated in the tag map
equal the sum of the durations of exactly those entries whose tag list
contains the tag. -/
theorem tag_fan_out (entries : List TimeEntryR) (t : String)
    (htags : ∀ e ∈ entries, e.tags.Nodup) :
    (mapGet t (tagMapOf entries)).getD 0 =
      ((entries.filter (fun e => t ∈ e.tags)).map
        (fun e => e.duration)).sum := by
  rw [tagMap_get]
  exact sum_count_eq_sum_filter t entries htags

/-- Witness for C7: a single entry with tags a and b contributes its full
ten-second duration to both tag buckets. -/
theorem tag_fan_out_witness :
    ((mapGet "a" (tagMapOf [tagEntryAB])).getD 0 =
      (([tagEntryAB].filter (fun e => "a" ∈ e.tags)).map
        (fun e => e.duration)).sum) ∧
    (mapGet "a" (tagMapOf [tagEntryAB])).getD 0 = 10 ∧
    (mapGet "b" (tagMapOf [tagEntryAB])).getD 0 = 10 :=
  ⟨tag_fan_out [tagEntryAB] "a" (by decide),
    by norm_num [tagMapOf, tagEntryAB, mapSet, mapGet],
    by norm_num [tagMapOf, tagEntryAB, mapSet, mapGet,
      show ("a" : String) ≠ "b" from by decide]⟩

/-- C8: for every nonempty entry set the hours of the project breakdown
rows sum to the report's total hours: grouping by project id partitions
the durations, and the exact rational model realises the claim's
up-to-floating-rounding equality exactly. -/
theorem project_breakdown_conservation (period : String)
    (startMs endMs : Int) (entries : List TimeEntryR)
    (projects : List Project) (hne : entries ≠ []) :
    (((generateReport period startMs endMs entries
        projects).projectBreakdown).map (fun r => r.hours)).sum =
      (generateReport period startMs endMs entries projects).totalHours := by
  rw [generateReport_totalHours, generateReport_projectBreakdown]
  have hperm := List.mergeSort_perm
    ((groupSum (fun e => e.projectId) entries).map (fun kv =>
      ({ projectId := kv.1,
         projectName :=
           ((projects.find? (fun p => p.id == kv.1)).map
             (fun p => p.name)).getD "Unknown Project",
         hours := kv.2 / 3600,
         percentage :=
           jsMul (jsDiv kv.2 (totalSecondsOf entries)) 100 } :
        ProjectRow)))
    (fun a b => decide (b.hours ≤ a.hours))
  rw [(hperm.map (fun r => r.hours)).sum_eq, List.map_map]
  have hcomp :
      ((fun r : ProjectRow => r.hours) ∘ (fun kv : String × ℚ =>
        ({ projectId := kv.1,
           projectName :=
             ((projects.find? (fun p => p.id == kv.1)).map
               (fun p => p.name)).getD "Unknown Project",
           hours := kv.2 / 3600,
           percentage :=
             jsMul (jsDiv kv.2 (totalSecondsOf entries)) 100 } :
          ProjectRow))) = fun kv : String × ℚ => kv.2 / 3600 := rfl
  rw [hcomp]
  have hdiv := sum_map_div (fun kv : String × ℚ => kv.2) 3600
    (groupSum (fun e => e.projectId) entries)
  rw [hdiv]
  have hval := valuesSum_groupSum (fun e => e.projectId) entries
  rw [valuesSum] at hval
  rw [hval, ← totalSecondsOf_eq_sum]

/-- Witness for C8: conservation on a concrete two-project entry set. -/
theorem project_breakdown_conservation_witness :
    (((generateReport "day" 0 86400000
        [{ projectId := "p", duration := 3600, tags := [], startDay := 0 },
         { projectId := "q", duration := 1800, tags := [], startDay := 0 }]
        []).projectBreakdown).map (fun r => r.hours)).sum =
      (generateReport "day" 0 86400000
        [{ projectId := "p", duration := 3600, tags := [], startDay := 0 },
         { projectId := "q", duration := 1800, tags := [], startDay := 0 }]
        []).totalHours :=
  project_breakdown_conservation "day" 0 86400000
    [{ projectId := "p", duration := 3600, tags := [], startDay := 0 },
     { projectId := "q", duration := 1800, tags := [], startDay := 0 }]
    [] (by decide)

/-- The zero-duration entry of the C1 counterexample. -/
def zeroEntry : TimeEntryR :=
  { projectId := "p", duration := 0, tags := ["t"], startDay := 0 }

/-- C1 as stated is false: for an entry set consisting only of one
zero-duration entry the total duration is zero, yet the project and tag
breakdown lists are not empty and their percentage fields are NaN — the
code divides zero by zero with no totalSeconds guard. -/
theorem percentage_nan_counterexample :
    totalSecondsOf [zeroEntry] = 0 ∧
    (generateReport "day" 0 86400000 [zeroEntry] []).projectBreakdown ≠ [] ∧
    ((generateReport "day" 0 86400000 [zeroEntry] []).projectBreakdown.map
      (fun r => r.percentage) = [JsNum.nan]) ∧
    ((generateReport "day" 0 86400000 [zeroEntry] []).tagBreakdown.map
      (fun r => r.percentage) = [JsNum.nan]) := by
  refine ⟨by norm_num [totalSecondsOf, zeroEntry], ?_, ?_, ?_⟩
  · norm_num [generateReport, totalSecondsOf, zeroEntry, groupSum,
      mapSet, mapGet]
  · norm_num [generateReport, totalSecondsOf, zeroEntry, groupSum,
      mapSet, mapGet, jsDiv, jsMul]
  · norm_num [generateReport, totalSecondsOf, zeroEntry, tagMapOf,
      mapSet, mapGet, jsDiv, jsMul]

/-- C1 amended: over data-model entries (nonnegative durations,
duplicate-free tag lists) the percentages are well-formed finite values in
0 to 100 whenever the total duration is positive, and an empty entry set
yields empty breakdown lists; but when the total duration is zero and the
entry set is not empty, the breakdown lists are not empty and every
percentage field is NaN, because the code divides by zero unguarded. -/
theorem percentage_well_formedness (period : String) (startMs endMs : Int)
    (entries : List TimeEntryR) (projects : List Project)
    (hnn : ∀ e ∈ entries, 0 ≤ e.duration)
    (htags : ∀ e ∈ entries, e.tags.Nodup) :
    (entries = [] →
      (generateReport period startMs endMs entries
        projects).projectBreakdown = [] ∧
      (generateReport period startMs endMs entries projects).tagBreakdown =
        []) ∧
    (0 < totalSecondsOf entries →
      (∀ r ∈ (generateReport period startMs endMs entries
          projects).projectBreakdown,
        ∃ q : ℚ, r.percentage = JsNum.num q ∧ 0 ≤ q ∧ q ≤ 100) ∧
      (∀ r ∈ (generateReport period startMs endMs entries
          projects).tagBreakdown,
        ∃ q : ℚ, r.percentage = JsNum.num q ∧ 0 ≤ q ∧ q ≤ 100)) ∧
    (totalSecondsOf entries = 0 → entries ≠ [] →
      (generateReport period startMs endMs entries
        projects).projectBreakdown ≠ [] ∧
      (∀ r ∈ (generateReport period startMs endMs entries
          projects).projectBreakdown, r.percentage = JsNum.nan) ∧
      (∀ r ∈ (generateReport period startMs endMs entries
          projects).tagBreakdown, r.percentage = JsNum.nan)) := by
  have hsum : (entries.map (fun e => e.duration)).sum =
      totalSecondsOf entries := (totalSecondsOf_eq_sum entries).symm
  refine ⟨?_, ?_, ?_⟩
  · intro h
    subst h
    constructor
    · rw [generateReport_projectBreakdown]
      simp [groupSum]
    · rw [generateReport_tagBreakdown]
      simp [tagMapOf]
  · intro hpos
    have hbound : ∀ p : TimeEntryR → Bool,
        0 ≤ ((entries.filter p).map (fun e => e.duration)).sum ∧
          ((entries.filter p).map (fun e => e.duration)).sum ≤
            totalSecondsOf entries := by
      intro p
      constructor
      · exact sum_map_nonneg _ _
          (fun x hx => hnn x (List.mem_of_mem_filter hx))
      · rw [← hsum]
        exact sum_map_filter_le p _ entries hnn
    have hq : ∀ v : ℚ, 0 ≤ v → v ≤ totalSecondsOf entries →
        ∃ q : ℚ, jsMul (jsDiv v (totalSecondsOf entries)) 100 =
          JsNum.num q ∧ 0 ≤ q ∧ q ≤ 100 := by
      intro v h0 hv
      refine ⟨v / totalSecondsOf entries * 100, ?_, ?_, ?_⟩
      · simp [jsDiv, jsMul, ne_of_gt hpos]
      · positivity
      · have hdiv : v / totalSecondsOf entries ≤ 1 :=
          (div_le_one hpos).2 hv
        nlinarith
    constructor
    · intro r hr
      rw [generateReport_projectBreakdown, List.mem_mergeSort] at hr
      obtain ⟨kv, hkv, rfl⟩ := List.mem_map.1 hr
      obtain ⟨k, v⟩ := kv
      have hv := groupSum_mem_value (fun e => e.projectId) hkv
      obtain ⟨hb1, hb2⟩ := hbound (fun e => decide (e.projectId = k))
      exact hq v (hv ▸ hb1) (hv ▸ hb2)
    · intro r hr
      rw [generateReport_tagBreakdown, List.mem_mergeSort] at hr
      obtain ⟨kv, hkv, rfl⟩ := List.mem_map.1 hr
      obtain ⟨t, v⟩ := kv
      have hv := tagMap_mem_value hkv
      rw [sum_count_eq_sum_filter t entries htags] at hv
      obtain ⟨hb1, hb2⟩ := hbound (fun e => decide (t ∈ e.tags))
      exact hq v (hv ▸ hb1) (hv ▸ hb2)
  · intro hzero hne
    have hall : ∀ e ∈ entries, e.duration = 0 := by
      intro e he
      exact sum_map_eq_zero (fun e => e.duration) entries hnn
        (by rw [hsum, hzero]) e he
    have hnan : ∀ v : ℚ, v = 0 →
        jsMul (jsDiv v (totalSecondsOf entries)) 100 = JsNum.nan := by
      intro v hv
      simp [jsDiv, jsMul, hv, hzero]
    refine ⟨?_, ?_, ?_⟩
    · obtain ⟨e0, he0⟩ := List.exists_mem_of_ne_nil entries hne
      have hk := groupSum_keys_mem (fun e => e.projectId) he0
      rw [keysOf] at hk
      obtain ⟨kv, hkv, _⟩ := List.mem_map.1 hk
      rw [generateReport_projectBreakdown]
      intro hc
      have hlen := (List.mergeSort_perm
        ((groupSum (fun e => e.projectId) entries).map (fun kv =>
          ({ projectId := kv.1,
             projectName :=
               ((projects.find? (fun p => p.id == kv.1)).map
                 (fun p => p.name)).getD "Unknown Project",
             hours := kv.2 / 3600,
             percentage :=
               jsMul (jsDiv kv.2 (totalSecondsOf entries)) 100 } :
            ProjectRow)))
        (fun a b => decide (b.hours ≤ a.hours))).length_eq
      rw [hc] at hlen
      simp only [List.length_nil, List.length_map] at hlen
      rw [List.eq_nil_of_length_eq_zero hlen.symm] at hkv
      cases hkv
    · intro r hr
      rw [generateReport_projectBreakdown, List.mem_mergeSort] at hr
      obtain ⟨kv, hkv, rfl⟩ := List.mem_map.1 hr
      obtain ⟨k, v⟩ := kv
      have hv := groupSum_mem_value (fun e => e.projectId) hkv
      have hv0 : v = 0 := by
        rw [hv]
        apply List.sum_eq_zero
        intro x hx
        obtain ⟨e, he, rfl⟩ := List.mem_map.1 hx
        exact hall e (List.mem_of_mem_filter he)
      exact hnan v hv0
    · intro r hr
      rw [generateReport_tagBreakdown, List.mem_mergeSort] at hr
      obtain ⟨kv, hkv, rfl⟩ := List.mem_map.1 hr
      obtain ⟨t, v⟩ := kv
      have hv := tagMap_mem_value hkv
      have hv0 : v = 0 := by
        rw [hv]
        apply List.sum_eq_zero
        intro x hx
        obtain ⟨e, he, rfl⟩ := List.mem_map.1 hx
        rw [hall e he]
        ring
      exact hnan v hv0

/-- A one-hour single-project entry used in the C1 witness. -/
def hourEntry : TimeEntryR :=
  { projectId := "p", duration := 3600, tags := [], startDay := 0 }

/-- Witness for the amended C1: the concrete one-hour entry set has a
positive total, and its single project percentage is a finite value inside
the range 0 to 100 (namely 100). -/
theorem percentage_well_formedness_witness :
    ∃ q : ℚ,
      ((generateReport "day" 0 86400000 [hourEntry] []).projectBreakdown.map
        (fun r => r.percentage)) = [JsNum.num q] ∧ 0 ≤ q ∧ q ≤ 100 := by
  have hall := ((percentage_well_formedness "day" 0 86400000 [hourEntry] []
      (by norm_num [hourEntry]) (by simp [hourEntry])).2.1
    (by norm_num [totalSecondsOf, hourEntry])).1
  have hbd : (generateReport "day" 0 86400000 [hourEntry]
      []).projectBreakdown =
      [{ projectId := "p", projectName := "Unknown Project", hours := 1,
         percentage := JsNum.num 100 }] := by
    norm_num [generateReport, totalSecondsOf, hourEntry, groupSum,
      mapSet, mapGet, jsDiv, jsMul]
  obtain ⟨q, hq, h0, h100⟩ := hall
    ({ projectId := "p", projectName := "Unknown Project", hours := 1,
       percentage := JsNum.num 100 } : ProjectRow)
    (by rw [hbd]; exact List.mem_cons_self _ _)
  have hq100 : JsNum.num 100 = JsNum.num q := hq
  injection hq100 with hq100
  refine ⟨q, ?_, h0, h100⟩
  rw [hbd]
  simp [← hq100]

lemma le_foldl_max (l : List ℚ) : ∀ a : ℚ, a ≤ l.foldl max a := by
  induction l with
  | nil =>
    intro a
    simp
  | cons x rest ih =>
    intro a
    rw [List.foldl_cons]
    exact le_trans (le_max_left a x) (ih (max a x))

/-- C6: the heatmap normaliser is at least 1, and each cell of the year
gets level 0 exactly on zero hours and otherwise the level of the claim's
threshold chain on hours over the year maximum. -/
theorem heatmap_levels (entries : List TimeEntryR) (yearDays : List Int)
    (hnn : ∀ e ∈ entries, 0 ≤ e.duration) :
    1 ≤ maxHoursOf entries ∧
    ∀ cell ∈ generateHeatmapData entries yearDays,
      0 ≤ cell.hours ∧
      (cell.hours = 0 → cell.level = 0) ∧
      (0 < cell.hours →
        cell.level =
          if 3 / 4 ≤ cell.hours / maxHoursOf entries then 4
          else if 1 / 2 ≤ cell.hours / maxHoursOf entries then 3
          else if 1 / 4 ≤ cell.hours / maxHoursOf entries then 2
          else 1) := by
  constructor
  · exact le_foldl_max _ 1
  · intro cell hcell
    rw [generateHeatmapData, List.mem_map] at hcell
    obtain ⟨d, hd, rfl⟩ := hcell
    have hsec : 0 ≤ (mapGet d (groupSum (fun e => e.startDay)
        entries)).getD 0 := by
      rw [groupSum_get]
      exact sum_map_nonneg _ _
        (fun x hx => hnn x (List.mem_of_mem_filter hx))
    refine ⟨?_, ?_, ?_⟩
    · show 0 ≤ (mapGet d (groupSum (fun e => e.startDay)
          entries)).getD 0 / 3600
      exact div_nonneg hsec (by norm_num)
    · intro hz
      show levelOf
          ((mapGet d (groupSum (fun e => e.startDay) entries)).getD 0 /
            3600) (maxHoursOf entries) = 0
      have hz0 : (mapGet d (groupSum (fun e => e.startDay)
          entries)).getD 0 / 3600 = 0 := hz
      rw [hz0]
      simp [levelOf]
    · intro hp
      have hp0 : 0 < (mapGet d (groupSum (fun e => e.startDay)
          entries)).getD 0 / 3600 := hp
      show levelOf
          ((mapGet d (groupSum (fun e => e.startDay) entries)).getD 0 /
            3600) (maxHoursOf entries) =
        if 3 / 4 ≤ ((mapGet d (groupSum (fun e => e.startDay)
            entries)).getD 0 / 3600) / maxHoursOf entries then 4
        else if 1 / 2 ≤ ((mapGet d (groupSum (fun e => e.startDay)
            entries)).getD 0 / 3600) / maxHoursOf entries then 3
        else if 1 / 4 ≤ ((mapGet d (groupSum (fun e => e.startDay)
            entries)).getD 0 / 3600) / maxHoursOf entries then 2
        else 1
      rw [levelOf, if_pos hp0]

/-- The three entries of the C6 witness scenario: an eight-hour day, a
six-hour day and a 3.9-hour day. -/
def heatA : TimeEntryR :=
  { projectId := "p", duration := 28800, tags := [], startDay := 0 }

/-- The six-hour day of the C6 witness scenario. -/
def heatB : TimeEntryR :=
  { projectId := "p", duration := 21600, tags := [], startDay := 1 }

/-- The 3.9-hour day of the C6 witness scenario. -/
def heatC : TimeEntryR :=
  { projectId := "p", duration := 14040, tags := [], startDay := 2 }

/-- Witness for C6: with a year maximum of 8 hours, the 8-hour day and the
6-hour day (ratio exactly 0.75) get level 4, the 3.9-hour day (ratio
0.4875) gets level 2, and an empty day gets level 0. -/
theorem heatmap_levels_witness :
    (1 ≤ maxHoursOf [heatA, heatB, heatC] ∧
      ∀ cell ∈ generateHeatmapData [heatA, heatB, heatC] [0, 1, 2, 3],
        0 ≤ cell.hours ∧
        (cell.hours = 0 → cell.level = 0) ∧
        (0 < cell.hours →
          cell.level =
            if 3 / 4 ≤ cell.hours / maxHoursOf [heatA, heatB, heatC] then 4
            else if 1 / 2 ≤ cell.hours /
                maxHoursOf [heatA, heatB, heatC] then 3
            else if 1 / 4 ≤ cell.hours /
                maxHoursOf [heatA, heatB, heatC] then 2
            else 1)) ∧
    maxHoursOf [heatA, heatB, heatC] = 8 ∧
    (generateHeatmapData [heatA, heatB, heatC] [0, 1, 2, 3]).map
      (fun c => c.level) = [4, 4, 2, 0] :=
  ⟨heatmap_levels [heatA, heatB, heatC] [0, 1, 2, 3]
      (by norm_num [heatA, heatB, heatC]),
    by norm_num [maxHoursOf, heatA, heatB, heatC, groupSum, mapSet, mapGet],
    by norm_num [generateHeatmapData, heatA, heatB, heatC, groupSum,
      mapSet, mapGet, levelOf]⟩

/-- C9: for every input day, the generateWeekReport window starts at the
preceding (or same) Monday at midnight and ends at the following Sunday at
23:59:59.999, with Sunday inputs treated as the seventh day of the prior
Monday's week; in particular for the Wednesday day 6 of the epoch the
window runs from Monday day 4 to Sunday day 10. -/
theorem week_window :
    (∀ d : Int,
      (generateWeekReportWindow d).startMsOfDay = 0 ∧
      (generateWeekReportWindow d).endMsOfDay = 86399999 ∧
      jsGetDay (generateWeekReportWindow d).startDay = 1 ∧
      (generateWeekReportWindow d).startDay ≤ d ∧
      d < (generateWeekReportWindow d).startDay + 7 ∧
      (generateWeekReportWindow d).endDay =
        (generateWeekReportWindow d).startDay + 6 ∧
      jsGetDay (generateWeekReportWindow d).endDay = 0) ∧
    jsGetDay 6 = 3 ∧
    generateWeekReportWindow 6 =
      { startDay := 4, startMsOfDay := 0, endDay := 10,
        endMsOfDay := 86399999 } := by
  refine ⟨?_, by decide, by decide⟩
  intro d
  have hstart : (generateWeekReportWindow d).startDay =
      d - (if (d + 4) % 7 = 0 then 6 else (d + 4) % 7 - 1) := rfl
  have hend : (generateWeekReportWindow d).endDay =
      (generateWeekReportWindow d).startDay + 6 := rfl
  refine ⟨rfl, rfl, ?_, ?_, ?_, hend, ?_⟩
  · rw [jsGetDay, hstart]
    by_cases h : (d + 4) % 7 = 0
    · rw [if_pos h]
      omega
    · rw [if_neg h]
      omega
  · rw [hstart]
    by_cases h : (d + 4) % 7 = 0
    · rw [if_pos h]
      omega
    · rw [if_neg h]
      omega
  · rw [hstart]
    by_cases h : (d + 4) % 7 = 0
    · rw [if_pos h]
      omega
    · rw [if_neg h]
      omega
  · rw [jsGetDay, hend, hstart]
    by_cases h : (d + 4) % 7 = 0
    · rw [if_pos h]
      omega
    · rw [if_neg h]
      omega

lemma insertDesc_gt {d y : Int} (rest : List Int) (h : d > y) :
    insertDesc d (y :: rest) = d :: y :: rest := by
  simp [insertDesc, h]

lemma insertDesc_self {d : Int} (rest : List Int) :
    insertDesc d (d :: rest) = d :: rest := by
  simp [insertDesc]

lemma insertDesc_lt {d y : Int} (rest : List Int) (h1 : ¬d > y)
    (h2 : d ≠ y) : insertDesc d (y :: rest) = y :: insertDesc d rest := by
  simp [insertDesc, h1, h2]

lemma mem_insertDesc {x d : Int} {l : List Int} :
    x ∈ insertDesc d l ↔ x = d ∨ x ∈ l := by
  induction l with
  | nil => simp [insertDesc]
  | cons y rest ih =>
    by_cases h1 : d > y
    · rw [insertDesc_gt rest h1]
      simp [List.mem_cons]
    · by_cases h2 : d = y
      · subst h2
        rw [insertDesc_self rest]
        simp only [List.mem_cons]
        tauto
      · rw [insertDesc_lt rest h1 h2]
        simp only [List.mem_cons, ih]
        tauto

lemma pairwise_insertDesc {d : Int} {l : List Int}
    (h : l.Pairwise (fun a b => a > b)) :
    (insertDesc d l).Pairwise (fun a b => a > b) := by
  induction l with
  | nil => simp [insertDesc]
  | cons y rest ih =>
    rw [List.pairwise_cons] at h
    by_cases h1 : d > y
    · rw [insertDesc_gt rest h1, List.pairwise_cons]
      refine ⟨?_, ?_⟩
      · intro b hb
        rcases List.mem_cons.1 hb with rfl | hb
        · exact h1
        · exact lt_trans (h.1 b hb) h1
      · rw [List.pairwise_cons]
        exact h
    · by_cases h2 : d = y
      · subst h2
        rw [insertDesc_self rest, List.pairwise_cons]
        exact h
      · rw [insertDesc_lt rest h1 h2, List.pairwise_cons]
        refine ⟨?_, ih h.2⟩
        intro b hb
        rcases mem_insertDesc.1 hb with rfl | hb
        · omega
        · exact h.1 b hb

lemma sortedDatesOf_mem {x : Int} {days : List Int} :
    x ∈ sortedDatesOf days ↔ x ∈ days := by
  rw [sortedDatesOf]
  induction days with
  | nil => simp
  | cons d rest ih =>
    rw [List.foldr_cons, mem_insertDesc, List.mem_cons, ih]

lemma sortedDatesOf_pairwise (days : List Int) :
    (sortedDatesOf days).Pairwise (fun a b => a > b) := by
  rw [sortedDatesOf]
  induction days with
  | nil => simp
  | cons d rest ih =>
    rw [List.foldr_cons]
    exact pairwise_insertDesc ih

lemma sortedDatesOf_nodup (days : List Int) :
    (sortedDatesOf days).Nodup :=
  (sortedDatesOf_pairwise days).imp (fun h => by omega)

lemma sortedDatesOf_length_le (days : List Int) :
    (sortedDatesOf days).length ≤ days.length :=
  (List.subperm_of_subset (sortedDatesOf_nodup days)
    (fun x hx => sortedDatesOf_mem.1 hx)).length_le

lemma sortedDatesOf_ne_nil {days : List Int} (h : days ≠ []) :
    sortedDatesOf days ≠ [] := by
  obtain ⟨d, hd⟩ := List.exists_mem_of_ne_nil days h
  intro hc
  have : d ∈ sortedDatesOf days := sortedDatesOf_mem.2 hd
  rw [hc] at this
  cases this

/-- Any k consecutive days all contained in a duplicate-free list bound k
by the list's length. -/
lemma run_le_length {days : List Int} {k : Nat} {d : Int}
    (hnd : days.Nodup) (h : ∀ i : Nat, i < k → d - (i : Int) ∈ days) :
    k ≤ days.length := by
  have hinj : ((List.range k).map (fun i : Nat => d - (i : Int))).Nodup := by
    refine List.Nodup.map ?_ (List.nodup_range k)
    intro a b hab
    simp only at hab
    omega
  have hsub : ((List.range k).map (fun i : Nat => d - (i : Int))) ⊆ days := by
    intro x hx
    obtain ⟨i, hi, rfl⟩ := List.mem_map.1 hx
    exact h i (List.mem_range.1 hi)
  have := (List.subperm_of_subset hinj hsub).length_le
  simpa using this

lemma currentLoop_le (sorted : List Int) (today : Int) :
    ∀ fuel i : Nat, currentLoop sorted today i fuel ≤ fuel := by
  intro fuel
  induction fuel with
  | zero =>
    intro i
    simp [currentLoop]
  | succ n ih =>
    intro i
    simp only [currentLoop]
    by_cases h : sorted.contains (today - (i : Int))
    · rw [if_pos h]
      have := ih (i + 1)
      omega
    · rw [if_neg h]
      omega

lemma currentLoop_mem (sorted : List Int) (today : Int) :
    ∀ fuel i j : Nat, j < currentLoop sorted today i fuel →
      (today - ((i : Int) + (j : Int))) ∈ sorted := by
  intro fuel
  induction fuel with
  | zero =>
    intro i j hj
    simp [currentLoop] at hj
  | succ n ih =>
    intro i j hj
    simp only [currentLoop] at hj
    by_cases h : sorted.contains (today - (i : Int))
    · rw [if_pos h] at hj
      cases j with
      | zero =>
        simpa using h
      | succ j0 =>
        have hmem := ih (i + 1) j0 (by omega)
        have harg : today - (((i + 1 : Nat) : Int) + (j0 : Int)) =
            today - ((i : Int) + ((j0 + 1 : Nat) : Int)) := by
          push_cast
          ring
        rw [harg] at hmem
        exact hmem
    · rw [if_neg h] at hj
      omega

lemma currentLoop_next (sorted : List Int) (today : Int) :
    ∀ fuel i : Nat, currentLoop sorted today i fuel < fuel →
      (today - ((i : Int) + (currentLoop sorted today i fuel : Int)))
        ∉ sorted := by
  intro fuel
  induction fuel with
  | zero =>
    intro i h
    omega
  | succ n ih =>
    intro i h
    simp only [currentLoop] at h ⊢
    by_cases hc : sorted.contains (today - (i : Int))
    · rw [if_pos hc] at h ⊢
      have hlt : currentLoop sorted today (i + 1) n < n := by omega
      have := ih (i + 1) hlt
      intro hmem
      refine this ?_
      convert hmem using 2
      push_cast
      ring
    · rw [if_neg hc]
      intro hmem
      refine hc ?_
      have harg : today - ((i : Int) + ((0 : Nat) : Int)) =
          today - (i : Int) := by
        push_cast
        ring
      rw [harg] at hmem
      simpa using hmem

lemma contains_int_iff {l : List Int} {x : Int} :
    l.contains x = true ↔ x ∈ l := List.elem_iff

/-- The day right after the counted streak has no activity: either the
loop stopped on it, or the loop exhausted all distinct dates, in which
case a longer run would exceed the number of distinct dates. -/
lemma currentLoop_today_not_mem (sorted : List Int) (today : Int)
    (hnd : sorted.Nodup) :
    (today - ((currentLoop sorted today 0 sorted.length : Nat) : Int))
      ∉ sorted := by
  by_cases hfull : currentLoop sorted today 0 sorted.length < sorted.length
  · have h := currentLoop_next sorted today sorted.length 0 hfull
    intro hmem
    refine h ?_
    simpa using hmem
  · have hle := currentLoop_le sorted today sorted.length 0
    have hceq : currentLoop sorted today 0 sorted.length =
        sorted.length := by omega
    intro hmem
    have hrun : ∀ i : Nat, i < currentLoop sorted today 0 sorted.length + 1 →
        today - (i : Int) ∈ sorted := by
      intro i hi
      by_cases hic : i < currentLoop sorted today 0 sorted.length
      · have h := currentLoop_mem sorted today sorted.length 0 i hic
        simpa using h
      · have hie : i = currentLoop sorted today 0 sorted.length := by omega
        rw [hie]
        exact hmem
    have := run_le_length hnd hrun
    omega

/-- The current-streak loop of the source computes exactly the
specification value: the count of consecutive days with activity counting
back from today. -/
lemma currentLoop_eq_spec (days : List Int) (today : Int) :
    currentLoop (sortedDatesOf days) today 0 (sortedDatesOf days).length =
      specCurrentStreak days today := by
  rw [specCurrentStreak]
  symm
  rw [Nat.findGreatest_eq_iff]
  refine ⟨?_, ?_, ?_⟩
  · exact le_trans (currentLoop_le (sortedDatesOf days) today _ 0)
      (sortedDatesOf_length_le days)
  · intro hne
    simp only [List.all_eq_true, List.mem_range]
    intro i hi
    rw [contains_int_iff, ← sortedDatesOf_mem]
    have h := currentLoop_mem (sortedDatesOf days) today
      (sortedDatesOf days).length 0 i hi
    simpa using h
  · intro n hn hnle hP
    simp only [List.all_eq_true, List.mem_range] at hP
    have hmem : today -
        ((currentLoop (sortedDatesOf days) today 0
          (sortedDatesOf days).length : Nat) : Int) ∈ sortedDatesOf days := by
      rw [sortedDatesOf_mem]
      rw [← contains_int_iff]
      exact hP _ hn
    exact currentLoop_today_not_mem (sortedDatesOf days) today
      (sortedDatesOf_nodup days) hmem

lemma runLengths_single (d : Int) : runLengths [d] = [1] := rfl

lemma runLengths_ne_nil (x : Int) (xs : List Int) :
    runLengths (x :: xs) ≠ [] := by
  cases xs with
  | nil => simp [runLengths_single]
  | cons y ys =>
    rw [runLengths]
    cases hm : runLengths (y :: ys) with
    | nil => simp
    | cons r rs => by_cases h : x - y = 1 <;> simp [h]

lemma runLengths_cons_cons (d d2 : Int) (rest : List Int) :
    ∃ r : Nat, ∃ rs : List Nat, runLengths (d2 :: rest) = r :: rs ∧
      runLengths (d :: d2 :: rest) =
        (if d - d2 = 1 then (r + 1) :: rs else 1 :: r :: rs) := by
  cases hm : runLengths (d2 :: rest) with
  | nil => exact absurd hm (runLengths_ne_nil d2 rest)
  | cons r rs =>
    refine ⟨r, rs, rfl, ?_⟩
    rw [runLengths, hm]

lemma runLengths_pos {l : List Int} : ∀ r ∈ runLengths l, 1 ≤ r := by
  induction l with
  | nil =>
    intro r hr
    cases hr
  | cons d rest ih =>
    intro r hr
    cases rest with
    | nil =>
      rw [runLengths_single] at hr
      rw [List.mem_singleton] at hr
      omega
    | cons d2 rest' =>
      obtain ⟨r1, rs, hm, hc⟩ := runLengths_cons_cons d d2 rest'
      rw [hc] at hr
      by_cases h : d - d2 = 1
      · rw [if_pos h] at hr
        rcases List.mem_cons.1 hr with rfl | hr
        · omega
        · exact ih r (by rw [hm]; exact List.mem_cons_of_mem _ hr)
      · rw [if_neg h] at hr
        rcases List.mem_cons.1 hr with rfl | hr
        · omega
        · exact ih r (by rw [hm]; exact hr)

lemma maxList_cons (r : Nat) (rs : List Nat) :
    maxList (r :: rs) = max r (maxList rs) := rfl

lemma le_maxList_of_mem {x : Nat} {l : List Nat} (h : x ∈ l) :
    x ≤ maxList l := by
  induction l with
  | nil => cases h
  | cons r rs ih =>
    rw [maxList_cons]
    rcases List.mem_cons.1 h with rfl | h
    · omega
    · have := ih h
      omega

lemma maxList_eq_zero_or_mem (l : List Nat) :
    maxList l = 0 ∨ maxList l ∈ l := by
  induction l with
  | nil => exact Or.inl rfl
  | cons r rs ih =>
    rw [maxList_cons]
    rcases Nat.le_total r (maxList rs) with h | h
    · rcases ih with h0 | hm
      · rw [h0]
        rcases Nat.eq_zero_or_pos r with rfl | hr
        · exact Or.inl (by omega)
        · exact Or.inr (by rw [List.mem_cons]; exact Or.inl (by omega))
      · exact Or.inr (by
          rw [List.mem_cons]
          exact Or.inr (by rwa [max_eq_right h]))
    · exact Or.inr (by rw [List.mem_cons]; exact Or.inl (max_eq_left h))

lemma maxList_filter_cons (p : Nat → Bool) (r : Nat) (rs : List Nat) :
    maxList ((r :: rs).filter p) =
      max (if p r then r else 0) (maxList (rs.filter p)) := by
  by_cases hp : p r
  · simp [List.filter_cons, hp, maxList_cons]
  · simp [List.filter_cons, hp]

lemma longestLoop_max_best (rest : List Int) :
    ∀ (prev : Int) (temp best : Nat),
      longestLoop rest prev temp best =
        max best (longestLoop rest prev temp 0) := by
  induction rest with
  | nil =>
    intro prev temp best
    simp [longestLoop]
  | cons curr rest ih =>
    intro prev temp best
    simp only [longestLoop]
    by_cases h : prev - curr = 1
    · rw [if_pos h, if_pos h]
      rw [ih curr (temp + 1) (max best (temp + 1)),
        ih curr (temp + 1) (max 0 (temp + 1))]
      omega
    · rw [if_neg h, if_neg h]
      exact ih curr 1 best

/-- The longest-streak loop on the tail, with a live run of length t + 1
ending at prev, computes the maximum of the head run's recorded value
(only counted when the head run reaches length two) and the best
length-two-or-more run among the remaining runs. -/
lemma longestLoop_runs :
    ∀ (rest : List Int) (prev : Int) (t : Nat) (r1 : Nat) (rs : List Nat),
      runLengths (prev :: rest) = r1 :: rs →
      longestLoop rest prev (t + 1) 0 =
        max (if 2 ≤ r1 then r1 + t else 0)
          (maxList (rs.filter (fun r => 2 ≤ r))) := by
  intro rest
  induction rest with
  | nil =>
    intro prev t r1 rs hr
    rw [runLengths_single] at hr
    cases hr
    simp [longestLoop, maxList]
  | cons curr rest ih =>
    intro prev t r1 rs hr
    obtain ⟨r1', rs', hr', hrc⟩ := runLengths_cons_cons prev curr rest
    rw [hr] at hrc
    have hr1p : 1 ≤ r1' :=
      runLengths_pos r1' (by rw [hr']; exact List.mem_cons_self _ _)
    by_cases h : prev - curr = 1
    · rw [if_pos h] at hrc
      injection hrc with h1 h2
      simp only [longestLoop, if_pos h]
      rw [h1, h2]
      rw [longestLoop_max_best rest curr (t + 1 + 1) (max 0 (t + 1 + 1))]
      rw [ih curr (t + 1) r1' rs' hr']
      have hT : 2 ≤ r1' + 1 := by omega
      by_cases h2r : 2 ≤ r1' <;> simp [h2r, hT] <;> omega
    · rw [if_neg h] at hrc
      injection hrc with h1 h2
      simp only [longestLoop, if_neg h]
      rw [h1, h2]
      have hstep : longestLoop rest curr 1 0 =
          longestLoop rest curr (0 + 1) 0 := rfl
      rw [hstep, ih curr 0 r1' rs' hr']
      rw [maxList_filter_cons]
      by_cases h2r : 2 ≤ r1' <;>
        simp [h2r, show ¬(2 ≤ 1) by omega] <;> omega

/-- The longest-streak loop over the whole descending date list computes
the maximum length of the runs of length at least two. -/
lemma longestLoop_eq_runsMax (d : Int) (rest : List Int) :
    longestLoop rest d 1 0 =
      maxList ((runLengths (d :: rest)).filter (fun r => 2 ≤ r)) := by
  cases hm : runLengths (d :: rest) with
  | nil =>
    exfalso
    cases rest with
    | nil => cases hm
    | cons d2 rest' =>
      obtain ⟨r1, rs, hr', hrc⟩ := runLengths_cons_cons d d2 rest'
      rw [hm] at hrc
      by_cases h : d - d2 = 1
      · rw [if_pos h] at hrc
        cases hrc
      · rw [if_neg h] at hrc
        cases hrc
  | cons r1 rs =>
    have hstep : longestLoop rest d 1 0 = longestLoop rest d (0 + 1) 0 := rfl
    rw [hstep, longestLoop_runs rest d 0 r1 rs hm, maxList_filter_cons]
    by_cases h2r : 2 ≤ r1
    · rw [if_pos h2r, if_pos (by simpa using h2r)]
      omega
    · rw [if_neg h2r, if_neg (by simpa using h2r)]

/-- In a strictly descending list whose head run (as computed by
runLengths) has length r1, the first r1 consecutive values counting down
from the head are all present. -/
lemma runLengths_head_anchor :
    ∀ (rest : List Int) (d : Int) (r1 : Nat) (rs : List Nat),
      (d :: rest).Pairwise (fun a b => a > b) →
      runLengths (d :: rest) = r1 :: rs →
      ∀ i : Nat, i < r1 → d - (i : Int) ∈ d :: rest := by
  intro rest
  induction rest with
  | nil =>
    intro d r1 rs hp hr i hi
    rw [runLengths_single] at hr
    injection hr with h1 h2
    rw [← h1] at hi
    have : i = 0 := by omega
    subst this
    simp
  | cons d2 rest' ih =>
    intro d r1 rs hp hr i hi
    obtain ⟨r1', rs', hr', hrc⟩ := runLengths_cons_cons d d2 rest'
    rw [hr] at hrc
    by_cases h : d - d2 = 1
    · rw [if_pos h] at hrc
      injection hrc with h1 h2
      cases i with
      | zero => simp
      | succ j =>
        rw [List.pairwise_cons] at hp
        have hj : j < r1' := by omega
        have hmem := ih d2 r1' rs' hp.2 hr' j hj
        have harg : d - ((j + 1 : Nat) : Int) = d2 - (j : Int) := by
          push_cast
          omega
        rw [harg]
        exact List.mem_cons_of_mem _ hmem
    · rw [if_neg h] at hrc
      injection hrc with h1 h2
      rw [h1] at hi
      have : i = 0 := by omega
      subst this
      simp

/-- Every run length reported by runLengths on a strictly descending list
is realised by consecutive values present in the list. -/
lemma runLengths_anchor :
    ∀ l : List Int, l.Pairwise (fun a b => a > b) →
      ∀ r ∈ runLengths l, ∃ d ∈ l, ∀ i : Nat, i < r →
        d - (i : Int) ∈ l := by
  intro l
  induction l with
  | nil =>
    intro _ r hr
    cases hr
  | cons d rest ih =>
    intro hp r hr
    cases rest with
    | nil =>
      rw [runLengths_single, List.mem_singleton] at hr
      subst hr
      exact ⟨d, by simp, by
        intro i hi
        have : i = 0 := by omega
        subst this
        simp⟩
    | cons d2 rest' =>
      obtain ⟨r1', rs', hr', hrc⟩ := runLengths_cons_cons d d2 rest'
      rw [List.pairwise_cons] at hp
      by_cases h : d - d2 = 1
      · rw [if_pos h] at hrc
        rw [hrc] at hr
        rcases List.mem_cons.1 hr with rfl | hrmem
        · refine ⟨d, by simp, ?_⟩
          have := runLengths_head_anchor (d2 :: rest') d (r1' + 1) rs'
            (by rw [List.pairwise_cons]; exact hp) hrc
          exact this
        · obtain ⟨d0, hd0, hrun⟩ := ih hp.2 r
            (by rw [hr']; exact List.mem_cons_of_mem _ hrmem)
          exact ⟨d0, List.mem_cons_of_mem _ hd0,
            fun i hi => List.mem_cons_of_mem _ (hrun i hi)⟩
      · rw [if_neg h] at hrc
        rw [hrc] at hr
        rcases List.mem_cons.1 hr with rfl | hrmem
        · refine ⟨d, by simp, ?_⟩
          intro i hi
          have : i = 0 := by omega
          subst this
          simp
        · obtain ⟨d0, hd0, hrun⟩ := ih hp.2 r (by rw [hr']; exact hrmem)
          exact ⟨d0, List.mem_cons_of_mem _ hd0,
            fun i hi => List.mem_cons_of_mem _ (hrun i hi)⟩

/-- In a strictly descending list, a run of k consecutive values counting
down from the head is bounded by the head run length of runLengths. -/
lemma runLengths_head_ge :
    ∀ (rest : List Int) (d : Int) (r1 : Nat) (rs : List Nat) (k : Nat),
      (d :: rest).Pairwise (fun a b => a > b) →
      runLengths (d :: rest) = r1 :: rs →
      (∀ i : Nat, i < k → d - (i : Int) ∈ d :: rest) →
      k ≤ r1 := by
  intro rest
  induction rest with
  | nil =>
    intro d r1 rs k hp hr hrun
    rw [runLengths_single] at hr
    injection hr with h1 h2
    by_contra hk
    have h2k : 2 ≤ k := by omega
    have := hrun 1 (by omega)
    rw [List.mem_singleton] at this
    omega
  | cons d2 rest' ih =>
    intro d r1 rs k hp hr hrun
    have hr1p : 1 ≤ r1 :=
      runLengths_pos r1 (by rw [hr]; exact List.mem_cons_self _ _)
    by_cases hk : k ≤ 1
    · omega
    · rw [List.pairwise_cons] at hp
      have hdgt : d > d2 := hp.1 d2 (List.mem_cons_self _ _)
      have h1mem : d - (1 : Int) ∈ d :: d2 :: rest' := by
        have := hrun 1 (by omega)
        simpa using this
      have hd2 : d - 1 = d2 := by
        rcases List.mem_cons.1 h1mem with he | h1'
        · omega
        · rcases List.mem_cons.1 h1' with he | h1''
          · exact he
          · rw [List.pairwise_cons] at hp
            have := hp.2.1 (d - 1) h1''
            omega
      have h : d - d2 = 1 := by omega
      obtain ⟨r1', rs', hr', hrc⟩ := runLengths_cons_cons d d2 rest'
      rw [if_pos h] at hrc
      rw [hr] at hrc
      injection hrc with hh1 hh2
      have hrun' : ∀ i : Nat, i < k - 1 → d2 - (i : Int) ∈ d2 :: rest' := by
        intro i hi
        have hm := hrun (i + 1) (by omega)
        have harg : d - ((i + 1 : Nat) : Int) = d2 - (i : Int) := by
          push_cast
          omega
        rw [harg] at hm
        rcases List.mem_cons.1 hm with he | hm2
        · exfalso
          omega
        · exact hm2
      have := ih d2 r1' rs' (k - 1) hp.2 hr' hrun'
      omega

/-- In a strictly descending list, every realised run of consecutive
values is bounded by some reported run length. -/
lemma run_le_runLengths :
    ∀ l : List Int, l.Pairwise (fun a b => a > b) →
      ∀ (k : Nat) (d0 : Int), d0 ∈ l →
        (∀ i : Nat, i < k → d0 - (i : Int) ∈ l) →
        ∃ r ∈ runLengths l, k ≤ r := by
  intro l
  induction l with
  | nil =>
    intro _ k d0 hd0
    cases hd0
  | cons d rest ih =>
    intro hp k d0 hd0 hrun
    by_cases hdd : d0 = d
    · subst hdd
      cases hmr : runLengths (d0 :: rest) with
      | nil => exact absurd hmr (runLengths_ne_nil d0 rest)
      | cons r1 rs =>
        have := runLengths_head_ge rest d0 r1 rs k hp hmr hrun
        exact ⟨r1, List.mem_cons_self _ _, this⟩
    · have hd0r : d0 ∈ rest := by
        rcases List.mem_cons.1 hd0 with he | hm
        · exact absurd he hdd
        · exact hm
      rw [List.pairwise_cons] at hp
      have hdgt : d > d0 := hp.1 d0 hd0r
      have hrun' : ∀ i : Nat, i < k → d0 - (i : Int) ∈ rest := by
        intro i hi
        rcases List.mem_cons.1 (hrun i hi) with he | hm
        · exfalso
          have : (0 : Int) ≤ (i : Int) := by positivity
          omega
        · exact hm
      cases rest with
      | nil => cases hd0r
      | cons d2 rest' =>
        obtain ⟨r, hrr, hkr⟩ := ih hp.2 k d0 hd0r hrun'
        obtain ⟨r1', rs', hr', hrc⟩ := runLengths_cons_cons d d2 rest'
        rw [hr'] at hrr
        by_cases h : d - d2 = 1
        · rw [if_pos h] at hrc
          rcases List.mem_cons.1 hrr with rfl | hm
          · exact ⟨r + 1, by rw [hrc]; exact List.mem_cons_self _ _,
              by omega⟩
          · exact ⟨r, by rw [hrc]; exact List.mem_cons_of_mem _ hm, hkr⟩
        · rw [if_neg h] at hrc
          exact ⟨r, by rw [hrc]; exact List.mem_cons_of_mem _ hrr, hkr⟩

lemma hasRunB_iff (days : List Int) (k : Nat) :
    hasRunB days k = true ↔
      ∃ d ∈ days, ∀ i : Nat, i < k → d - (i : Int) ∈ days := by
  rw [hasRunB]
  simp [List.any_eq_true, List.all_eq_true, List.mem_range]

/-- The longest-streak loop over the sorted distinct dates computes the
greatest length of a run of at least two consecutive days with activity
(or zero when there is none). -/
lemma longestLoop_eq_specTwo (days : List Int) {d : Int} {rest : List Int}
    (hsort : sortedDatesOf days = d :: rest) :
    longestLoop rest d 1 0 = specLongestRunTwo days := by
  have hpair : (d :: rest).Pairwise (fun a b => a > b) := by
    rw [← hsort]
    exact sortedDatesOf_pairwise days
  have hnd : (d :: rest).Nodup := by
    rw [← hsort]
    exact sortedDatesOf_nodup days
  have hmemiff : ∀ x : Int, x ∈ d :: rest ↔ x ∈ days := by
    intro x
    rw [← hsort]
    exact sortedDatesOf_mem
  have hlen : (d :: rest).length ≤ days.length := by
    rw [← hsort]
    exact sortedDatesOf_length_le days
  rw [longestLoop_eq_runsMax, specLongestRunTwo]
  symm
  rw [Nat.findGreatest_eq_iff]
  refine ⟨?_, ?_, ?_⟩
  · rcases maxList_eq_zero_or_mem
        ((runLengths (d :: rest)).filter (fun r => 2 ≤ r)) with h0 | hm
    · rw [h0]
      exact Nat.zero_le _
    · obtain ⟨hmr, hcond⟩ := List.mem_filter.1 hm
      obtain ⟨d0, hd0, hrun⟩ := runLengths_anchor (d :: rest) hpair _ hmr
      exact le_trans (run_le_length hnd hrun) hlen
  · intro hM0
    rcases maxList_eq_zero_or_mem
        ((runLengths (d :: rest)).filter (fun r => 2 ≤ r)) with h0 | hm
    · exact absurd h0 hM0
    · obtain ⟨hmr, hcond⟩ := List.mem_filter.1 hm
      obtain ⟨d0, hd0, hrun⟩ := runLengths_anchor (d :: rest) hpair _ hmr
      refine ⟨by simpa using hcond, ?_⟩
      rw [hasRunB_iff]
      exact ⟨d0, (hmemiff d0).1 hd0,
        fun i hi => (hmemiff _).1 (hrun i hi)⟩
  · intro n hn hnle hP
    obtain ⟨h2n, hB⟩ := hP
    obtain ⟨d0, hd0, hrun⟩ := (hasRunB_iff days n).1 hB
    obtain ⟨r, hrr, hkr⟩ := run_le_runLengths (d :: rest) hpair n d0
      ((hmemiff d0).2 hd0) (fun i hi => (hmemiff _).2 (hrun i hi))
    have hrf : r ∈ (runLengths (d :: rest)).filter (fun r => 2 ≤ r) :=
      List.mem_filter.2 ⟨hrr, by simp; omega⟩
    have := le_maxList_of_mem hrf
    omega

/-- Activity on day 1 of the streak scenarios. -/
def streakD1 : TimeEntryR :=
  { projectId := "p", duration := 3600, tags := [], startDay := 1 }

/-- Activity on day 2 of the streak scenarios. -/
def streakD2 : TimeEntryR :=
  { streakD1 with startDay := 2 }

/-- Activity on day 3 of the streak scenarios. -/
def streakD3 : TimeEntryR :=
  { streakD1 with startDay := 3 }

/-- C5 as stated is false on its longest-streak clause: for a history with
a single activity day (day 1) and today two days later (day 3), the
source's calculateStreak reports longest = 0, while the maximum run length
of consecutive calendar dates with entries across the whole history (the
claim's definition) is 1: an isolated day away from the current streak is
never counted. -/
theorem streak_isolated_day_counterexample :
    calculateStreak [streakD1] 3 = { current := 0, longest := 0 } ∧
    specLongestRun ([streakD1].map (fun e => e.startDay)) = 1 := by
  constructor
  · decide
  · decide

/-- C5 amended: current is the count of consecutive activity days ending
today (zero when today has none), and longest is the maximum of the
current streak and the greatest length of a run of at least two
consecutive activity days — a history whose runs away from today all have
length one reports longest 0, not 1; the claim's two concrete scenarios
hold as stated. -/
theorem calculateStreak_spec :
    (∀ (entries : List TimeEntryR) (today : Int),
      calculateStreak entries today =
        { current :=
            specCurrentStreak (entries.map (fun e => e.startDay)) today,
          longest :=
            max (specCurrentStreak (entries.map (fun e => e.startDay))
                today)
              (specLongestRunTwo (entries.map (fun e => e.startDay))) }) ∧
    calculateStreak [streakD1, streakD2, streakD3] 3 =
      { current := 3, longest := 3 } ∧
    calculateStreak [streakD1, streakD3] 3 =
      { current := 1, longest := 1 } := by
  refine ⟨?_, by decide, by decide⟩
  intro entries today
  by_cases hne : entries = []
  · subst hne
    simp [calculateStreak, specCurrentStreak, specLongestRunTwo,
      Nat.findGreatest_zero]
  · have hdays : entries.map (fun e => e.startDay) ≠ [] := by
      simpa using hne
    obtain ⟨d, rest, hsort⟩ : ∃ d rest,
        sortedDatesOf (entries.map (fun e => e.startDay)) = d :: rest := by
      cases hs : sortedDatesOf (entries.map (fun e => e.startDay)) with
      | nil => exact absurd hs (sortedDatesOf_ne_nil hdays)
      | cons d rest => exact ⟨d, rest, rfl⟩
    have hcur := currentLoop_eq_spec (entries.map (fun e => e.startDay))
      today
    rw [hsort] at hcur
    have hlong := longestLoop_eq_specTwo
      (entries.map (fun e => e.startDay)) hsort
    simp only [calculateStreak, if_neg hne, hsort]
    rw [Streak.mk.injEq]
    exact ⟨hcur, by rw [hlong, hcur, Nat.max_comm]⟩
